import Mathlib

/-!
Shallow embedding of the probabilistic data structures of the repository
(Bloom filter, Counting Bloom filter, Count-Min sketch, HyperLogLog),
translated from the Python reference implementations under
`17-probabilistic-structures-BigData*/python_comparison/`.

Modelling conventions:
* Python `int` is embedded as `Int` (arbitrary precision), container sizes as `Nat`.
* The cryptographic digests (MD5, SHA-1, SHA-256) are modelled as arbitrary
  functions `String → Nat` (respectively `Nat → String → Nat` for the per-row
  salted digest of the Count-Min sketch): every theorem quantifies over them,
  so it holds in particular for the concrete digests of the code.
* A raised `ValueError` is embedded as `Except.error (PyErr.valueError msg)`
  with the message string of the source.
* Floating-point-only fields that no verified operation reads (`alpha` of
  HyperLogLog) are omitted from the state.
-/

/-- A raised Python exception, carrying the message of the source. -/
inductive PyErr where
  | valueError (msg : String)
deriving DecidableEq

/-! ## Bloom filter (`bloom_filter.py`, class `BloomFilter`) -/

/-- `BloomFilter._set_bit`: `self.bits[index // 8] |= (1 << (index % 8))`. -/
def setBit (bits : List Nat) (index : Nat) : List Nat :=
  bits.set (index / 8) (bits.getD (index / 8) 0 ||| (1 <<< (index % 8)))

/-- `BloomFilter._get_bit`: `bool(self.bits[index // 8] & (1 << (index % 8)))`. -/
def getBit (bits : List Nat) (index : Nat) : Bool :=
  bits.getD (index / 8) 0 &&& (1 <<< (index % 8)) != 0

/-- State of `BloomFilter`: sizes, item counter and the byte array `bits`. -/
structure BloomFilter where
  num_bits : Int
  num_hashes : Int
  num_items : Int
  bits : List Nat
deriving DecidableEq

/-- `BloomFilter.__init__`: stores the parameters unvalidated and allocates
`bytearray((num_bits + 7) // 8)`; the only failure Python can raise here is
the `ValueError` of a negative `bytearray` count. -/
def bloomInit (num_bits num_hashes : Int) : Except PyErr BloomFilter :=
  if (num_bits + 7).fdiv 8 < 0 then
    .error (.valueError "negative count")
  else
    .ok { num_bits := num_bits, num_hashes := num_hashes, num_items := 0,
          bits := List.replicate ((num_bits + 7).fdiv 8).toNat 0 }

/-- `BloomFilter._hash`: Kirsch–Mitzenmacher `(h1 + seed * h2) % num_bits`,
with the two digests `h1`, `h2` abstracted. -/
def bloomHash (h1 h2 : String → Nat) (num_bits : Int) (item : String) (seed : Nat) : Nat :=
  (((h1 item : Int) + seed * h2 item) % num_bits).toNat

/-- `BloomFilter.add`: set the `k` hashed bits, then `num_items += 1`. -/
def bloomAdd (h1 h2 : String → Nat) (bf : BloomFilter) (item : String) : BloomFilter :=
  { bf with
    bits := (List.range bf.num_hashes.toNat).foldl
      (fun bs i => setBit bs (bloomHash h1 h2 bf.num_bits item i)) bf.bits,
    num_items := bf.num_items + 1 }

/-- `BloomFilter.query`: all `k` hashed bits set (the Python loop
short-circuits on the first unset bit; `List.all` computes the same value). -/
def bloomQuery (h1 h2 : String → Nat) (bf : BloomFilter) (item : String) : Bool :=
  (List.range bf.num_hashes.toNat).all
    (fun i => getBit bf.bits (bloomHash h1 h2 bf.num_bits item i))

/-- A sequence of `add` calls, in order. -/
def bloomRun (h1 h2 : String → Nat) (bf : BloomFilter) (items : List String) : BloomFilter :=
  items.foldl (fun b it => bloomAdd h1 h2 b it) bf

/-! ### Bit-array lemmas -/

theorem getD_set_self {l : List Nat} {i : Nat} {v : Nat} (h : i < l.length) :
    (l.set i v).getD i 0 = v := by
  rw [List.getD_eq_getElem _ _ (by simpa using h)]
  simp

theorem getD_set_ne {l : List Nat} {i j : Nat} {v : Nat} (h : i ≠ j) :
    (l.set i v).getD j 0 = l.getD j 0 := by
  rcases lt_or_le j l.length with hj | hj
  · rw [List.getD_eq_getElem _ _ (by simpa using hj), List.getD_eq_getElem _ _ hj]
    simp [List.getElem_set_ne h]
  · rw [List.getD_eq_default _ _ (by simpa using hj), List.getD_eq_default _ _ hj]

theorem getBit_eq_testBit (bits : List Nat) (index : Nat) :
    getBit bits index = (bits.getD (index / 8) 0).testBit (index % 8) := by
  unfold getBit
  rw [Nat.shiftLeft_eq, one_mul, Nat.and_two_pow]
  rcases h : (bits.getD (index / 8) 0).testBit (index % 8) with _ | _
  · simp
  · simp [(Nat.two_pow_pos (index % 8)).ne']

theorem length_setBit (bits : List Nat) (i : Nat) :
    (setBit bits i).length = bits.length := by
  simp [setBit]

theorem getBit_setBit_self (bits : List Nat) (i : Nat) (h : i / 8 < bits.length) :
    getBit (setBit bits i) i = true := by
  rw [getBit_eq_testBit, setBit, getD_set_self h, Nat.testBit_or]
  rw [Nat.shiftLeft_eq, one_mul]
  simp [Nat.testBit_two_pow_self]

theorem getBit_setBit_mono (bits : List Nat) (i j : Nat) (h : getBit bits j = true) :
    getBit (setBit bits i) j = true := by
  rw [getBit_eq_testBit] at h ⊢
  unfold setBit
  by_cases hb : i / 8 = j / 8
  · rw [hb]
    rcases lt_or_le (j / 8) bits.length with hl | hl
    · rw [getD_set_self hl, Nat.testBit_or, h]
      simp
    · rw [List.set_eq_of_length_le (by simpa using hl)]
      exact h
  · rw [getD_set_ne hb]
    exact h

/-! ### Bloom filter well-formedness and monotonicity -/

/-- The constructor invariant used by the no-false-negative proof. -/
def bloomWF (bf : BloomFilter) : Prop :=
  0 < bf.num_bits ∧ bf.bits.length = ((bf.num_bits + 7).fdiv 8).toNat

theorem bloomInit_wf {nb nh : Int} (hnb : 0 < nb) {bf : BloomFilter}
    (h : bloomInit nb nh = .ok bf) :
    bloomWF bf ∧ bf.num_bits = nb ∧ bf.num_hashes = nh := by
  unfold bloomInit at h
  split at h
  · exact absurd h (by simp)
  · cases h
    refine ⟨⟨hnb, by simp⟩, rfl, rfl⟩

theorem bloomHash_lt (h1 h2 : String → Nat) {num_bits : Int} (hnb : 0 < num_bits)
    (item : String) (seed : Nat) :
    (bloomHash h1 h2 num_bits item seed : Int) < num_bits := by
  unfold bloomHash
  rw [Int.toNat_of_nonneg (Int.emod_nonneg _ (by omega))]
  exact Int.emod_lt_of_pos _ hnb

theorem byteIndex_lt {bf : BloomFilter} (hwf : bloomWF bf) {idx : Nat}
    (hidx : (idx : Int) < bf.num_bits) : idx / 8 < bf.bits.length := by
  obtain ⟨hpos, hlen⟩ := hwf
  rw [hlen, Int.fdiv_eq_ediv _ (by norm_num)]
  omega

theorem bloomAdd_num_bits (h1 h2 : String → Nat) (bf : BloomFilter) (item : String) :
    (bloomAdd h1 h2 bf item).num_bits = bf.num_bits := rfl

theorem bloomAdd_num_hashes (h1 h2 : String → Nat) (bf : BloomFilter) (item : String) :
    (bloomAdd h1 h2 bf item).num_hashes = bf.num_hashes := rfl

theorem foldl_setBit_length (f : Nat → Nat) (l : List Nat) (bs : List Nat) :
    (l.foldl (fun bs i => setBit bs (f i)) bs).length = bs.length := by
  induction l generalizing bs with
  | nil => rfl
  | cons x xs ih => rw [List.foldl_cons, ih, length_setBit]

theorem foldl_setBit_mono (f : Nat → Nat) (l : List Nat) (bs : List Nat) (j : Nat)
    (h : getBit bs j = true) :
    getBit (l.foldl (fun bs i => setBit bs (f i)) bs) j = true := by
  induction l generalizing bs with
  | nil => exact h
  | cons x xs ih => exact ih _ (getBit_setBit_mono _ _ _ h)

theorem foldl_setBit_sets (f : Nat → Nat) (l : List Nat) (bs : List Nat) (i : Nat)
    (hi : i ∈ l) (hlt : f i / 8 < bs.length) :
    getBit (l.foldl (fun bs i => setBit bs (f i)) bs) (f i) = true := by
  induction l generalizing bs with
  | nil => cases hi
  | cons x xs ih =>
    rw [List.foldl_cons]
    rcases List.mem_cons.mp hi with hx | hx
    · subst hx
      exact foldl_setBit_mono f xs _ _ (getBit_setBit_self bs (f i) hlt)
    · exact ih _ hx (by rw [length_setBit]; exact hlt)

theorem bloomAdd_wf (h1 h2 : String → Nat) (bf : BloomFilter) (item : String)
    (hwf : bloomWF bf) : bloomWF (bloomAdd h1 h2 bf item) := by
  obtain ⟨hpos, hlen⟩ := hwf
  exact ⟨hpos, by rw [bloomAdd, foldl_setBit_length]; exact hlen⟩

theorem bloomAdd_mono (h1 h2 : String → Nat) (bf : BloomFilter) (item : String) (j : Nat)
    (h : getBit bf.bits j = true) : getBit (bloomAdd h1 h2 bf item).bits j = true :=
  foldl_setBit_mono _ _ _ _ h

theorem bloomQuery_after_add (h1 h2 : String → Nat) (bf : BloomFilter) (x : String)
    (hwf : bloomWF bf) : bloomQuery h1 h2 (bloomAdd h1 h2 bf x) x = true := by
  rw [bloomQuery, List.all_eq_true]
  intro i hi
  rw [bloomAdd_num_hashes] at hi
  rw [bloomAdd_num_bits]
  exact foldl_setBit_sets _ _ _ i hi
    (byteIndex_lt hwf (bloomHash_lt h1 h2 hwf.1 x i))

theorem bloomQuery_mono_add (h1 h2 : String → Nat) (bf : BloomFilter) (x y : String)
    (h : bloomQuery h1 h2 bf x = true) :
    bloomQuery h1 h2 (bloomAdd h1 h2 bf y) x = true := by
  rw [bloomQuery, List.all_eq_true] at h ⊢
  intro i hi
  rw [bloomAdd_num_hashes] at hi
  rw [bloomAdd_num_bits]
  exact bloomAdd_mono h1 h2 bf y _ (h i hi)

theorem bloomRun_wf (h1 h2 : String → Nat) (items : List String) (bf : BloomFilter)
    (hwf : bloomWF bf) : bloomWF (bloomRun h1 h2 bf items) := by
  induction items generalizing bf with
  | nil => exact hwf
  | cons x xs ih => exact ih _ (bloomAdd_wf h1 h2 bf x hwf)

theorem bloomRun_mono (h1 h2 : String → Nat) (items : List String) (bf : BloomFilter)
    (x : String) (h : bloomQuery h1 h2 bf x = true) :
    bloomQuery h1 h2 (bloomRun h1 h2 bf items) x = true := by
  induction items generalizing bf with
  | nil => exact h
  | cons y ys ih => exact ih _ (bloomQuery_mono_add h1 h2 bf x y h)

/-- C1: for every Bloom filter constructed with `num_bits > 0` and
`num_hashes ≥ 1`, after `add x` every later `query x` answers `true`,
whatever `add` calls on other keys happen before or after: no false
negatives. -/
theorem bloom_no_false_negatives (h1 h2 : String → Nat) (nb nh : Int)
    (hnb : 0 < nb) (hnh : 1 ≤ nh) (bf0 : BloomFilter)
    (hinit : bloomInit nb nh = .ok bf0) (pre mid : List String) (x : String) :
    bloomQuery h1 h2
      (bloomRun h1 h2 (bloomAdd h1 h2 (bloomRun h1 h2 bf0 pre) x) mid) x = true := by
  obtain ⟨hwf, -, -⟩ := bloomInit_wf hnb hinit
  exact bloomRun_mono h1 h2 mid _ x
    (bloomQuery_after_add h1 h2 _ x (bloomRun_wf h1 h2 pre bf0 hwf))

/-- Witness for C1 at a concrete filter, digests and keys. -/
theorem bloom_no_false_negatives_witness :
    bloomQuery (fun s => s.length) (fun _ => 1)
      (bloomRun (fun s => s.length) (fun _ => 1)
        (bloomAdd (fun s => s.length) (fun _ => 1)
          (bloomRun (fun s => s.length) (fun _ => 1)
            { num_bits := 8, num_hashes := 2, num_items := 0, bits := [0] }
            ["bb"]) "a") ["ccc"]) "a" = true :=
  bloom_no_false_negatives (fun s => s.length) (fun _ => 1) 8 2 (by norm_num)
    (by norm_num) _ (by rfl) ["bb"] ["ccc"] "a"

/-! ## Counting Bloom filter (`bloom_filter.py`, class `CountingBloomFilter`) -/

/-- State of `CountingBloomFilter`. `max_count` is the field computed by the
constructor as `(1 << counter_bits) - 1`. -/
structure CountingBloomFilter where
  num_counters : Nat
  num_hashes : Nat
  counter_bits : Nat
  max_count : Int
  num_items : Int
  counters : List Int
deriving DecidableEq

/-- `CountingBloomFilter.__init__` (no parameter validation in the source). -/
def cbfInit (num_counters num_hashes counter_bits : Nat) : CountingBloomFilter :=
  { num_counters := num_counters, num_hashes := num_hashes, counter_bits := counter_bits,
    max_count := ((1 <<< counter_bits : Nat) : Int) - 1,
    num_items := 0,
    counters := List.replicate num_counters 0 }

/-- `CountingBloomFilter._hash`: `(h1 + seed * h2) % self.num_counters`. -/
def cbfHash (h1 h2 : String → Nat) (num_counters : Nat) (item : String) (seed : Nat) : Nat :=
  (h1 item + seed * h2 item) % num_counters

/-- The list `indices = [self._hash(item, i) for i in range(self.num_hashes)]`. -/
def cbfIndices (h1 h2 : String → Nat) (s : CountingBloomFilter) (item : String) : List Nat :=
  (List.range s.num_hashes).map (cbfHash h1 h2 s.num_counters item)

/-- `CountingBloomFilter.add`: overflow pre-check over `indices`, then one
increment per entry of `indices` (a duplicated index is incremented once per
occurrence, exactly as the Python loop does). -/
def cbfAdd (h1 h2 : String → Nat) (s : CountingBloomFilter) (item : String) :
    Bool × CountingBloomFilter :=
  let indices := cbfIndices h1 h2 s item
  if indices.any (fun idx => s.max_count ≤ s.counters.getD idx 0) then
    (false, s)
  else
    (true, { s with
      counters := indices.foldl (fun cs idx => cs.set idx (cs.getD idx 0 + 1)) s.counters,
      num_items := s.num_items + 1 })

/-- `CountingBloomFilter.query`: `false` as soon as some target counter is 0. -/
def cbfQuery (h1 h2 : String → Nat) (s : CountingBloomFilter) (item : String) : Bool :=
  (List.range s.num_hashes).all
    (fun i => s.counters.getD (cbfHash h1 h2 s.num_counters item i) 0 != 0)

/-- `CountingBloomFilter.remove`: membership pre-check, then one guarded
decrement (`if self.counters[idx] > 0`) per hash index. -/
def cbfRemove (h1 h2 : String → Nat) (s : CountingBloomFilter) (item : String) :
    Bool × CountingBloomFilter :=
  if cbfQuery h1 h2 s item = false then
    (false, s)
  else
    (true, { s with
      counters := (List.range s.num_hashes).foldl (fun cs i =>
        let idx := cbfHash h1 h2 s.num_counters item i
        if 0 < cs.getD idx 0 then cs.set idx (cs.getD idx 0 - 1) else cs) s.counters,
      num_items := s.num_items - 1 })

/-! ### Counter-array lemmas -/

theorem getD_int_set_self {l : List Int} {i : Nat} {v : Int} (h : i < l.length) :
    (l.set i v).getD i 0 = v := by
  rw [List.getD_eq_getElem _ _ (by simpa using h)]
  simp

theorem getD_int_set_ne {l : List Int} {i j : Nat} {v : Int} (h : i ≠ j) :
    (l.set i v).getD j 0 = l.getD j 0 := by
  rcases lt_or_le j l.length with hj | hj
  · rw [List.getD_eq_getElem _ _ (by simpa using hj), List.getD_eq_getElem _ _ hj]
    simp [List.getElem_set_ne h]
  · rw [List.getD_eq_default _ _ (by simpa using hj), List.getD_eq_default _ _ hj]

theorem foldl_incr_length (l : List Nat) (cs : List Int) :
    (l.foldl (fun cs idx => cs.set idx (cs.getD idx 0 + 1)) cs).length = cs.length := by
  induction l generalizing cs with
  | nil => rfl
  | cons x xs ih => rw [List.foldl_cons, ih, List.length_set]

/-- Each counter ends up incremented once per occurrence of its index in `l`. -/
theorem foldl_incr_getD (l : List Nat) (cs : List Int) (j : Nat)
    (hl : ∀ i ∈ l, i < cs.length) :
    (l.foldl (fun cs idx => cs.set idx (cs.getD idx 0 + 1)) cs).getD j 0
      = cs.getD j 0 + l.count j := by
  induction l generalizing cs with
  | nil => simp
  | cons x xs ih =>
    rw [List.foldl_cons, ih _ (fun i hi => by
      rw [List.length_set]; exact hl i (List.mem_cons_of_mem _ hi))]
    by_cases hx : x = j
    · subst hx
      rw [getD_int_set_self (hl x (List.mem_cons_self x xs)), List.count_cons_self]
      push_cast
      ring
    · rw [getD_int_set_ne hx, List.count_cons_of_ne (by simpa using Ne.symm hx)]

/-- Amended C3: `add` fails (returning `false`, with the whole state
untouched) exactly when some target counter is already **at least**
`max_count` — the code checks `>=`, not equality, which differs on the
overflowed counters the colliding-add counterexample
`cbf_add_equals_check_cex` reaches; otherwise it returns `true`, bumps
`num_items`, and raises each counter by the number of occurrences of its
index among the `k` targets. -/
theorem cbf_add_saturation_check (h1 h2 : String → Nat) (s : CountingBloomFilter)
    (item : String) (hlen : s.counters.length = s.num_counters)
    (hpos : 0 < s.num_counters) :
    ((∃ idx ∈ cbfIndices h1 h2 s item, s.max_count ≤ s.counters.getD idx 0) →
        cbfAdd h1 h2 s item = (false, s)) ∧
    ((∀ idx ∈ cbfIndices h1 h2 s item, s.counters.getD idx 0 < s.max_count) →
        (cbfAdd h1 h2 s item).1 = true ∧
        (cbfAdd h1 h2 s item).2.num_items = s.num_items + 1 ∧
        ∀ j : Nat, (cbfAdd h1 h2 s item).2.counters.getD j 0
          = s.counters.getD j 0 + (cbfIndices h1 h2 s item).count j) := by
  have hidx : ∀ idx ∈ cbfIndices h1 h2 s item, idx < s.counters.length := by
    intro idx hmem
    rw [hlen]
    rw [cbfIndices, List.mem_map] at hmem
    obtain ⟨i, -, rfl⟩ := hmem
    exact Nat.mod_lt _ hpos
  constructor
  · intro ⟨idx, hmem, hge⟩
    have hany : (cbfIndices h1 h2 s item).any
        (fun idx => s.max_count ≤ s.counters.getD idx 0) = true := by
      rw [List.any_eq_true]
      exact ⟨idx, hmem, by simp only [decide_eq_true_eq]; exact hge⟩
    simp only [cbfAdd, hany]
    simp
  · intro hlt
    have hany : (cbfIndices h1 h2 s item).any
        (fun idx => s.max_count ≤ s.counters.getD idx 0) = false := by
      rw [List.any_eq_false]
      intro idx hmem
      simp only [decide_eq_true_eq, not_le]
      exact hlt idx hmem
    simp only [cbfAdd, hany]
    refine ⟨by simp, by simp, fun j => ?_⟩
    simpa using foldl_incr_getD _ _ j hidx

/-- Witness for (amended) C3: on a fresh `CountingBloomFilter(4, 2)` every
target counter is `0 < max_count`, so adding `"a"` succeeds, bumps
`num_items`, and raises the counter at target slot 1 by its single
occurrence. -/
theorem cbf_add_saturation_check_witness :
    (cbfAdd (fun _ => 0) (fun _ => 1) (cbfInit 4 2 4) "a").1 = true ∧
    (cbfAdd (fun _ => 0) (fun _ => 1) (cbfInit 4 2 4) "a").2.num_items = 0 + 1 ∧
    (cbfAdd (fun _ => 0) (fun _ => 1) (cbfInit 4 2 4) "a").2.counters.getD 1 0
      = (cbfInit 4 2 4).counters.getD 1 0
        + (cbfIndices (fun _ => 0) (fun _ => 1) (cbfInit 4 2 4) "a").count 1 := by
  have h := (cbf_add_saturation_check (fun _ => 0) (fun _ => 1) (cbfInit 4 2 4) "a"
    (by decide) (by decide)).2 (by decide)
  exact ⟨h.1, h.2.1, h.2.2 1⟩

/-! ### C8: counter range -/

/-- `n` consecutive `add item` calls (keeping only the state). -/
def cbfAddN (h1 h2 : String → Nat) (item : String) :
    Nat → CountingBloomFilter → CountingBloomFilter
  | 0, s => s
  | n + 1, s => (cbfAdd h1 h2 (cbfAddN h1 h2 item n s) item).2

/-- Counterexample to C8: with `num_counters = 1` every hash index is `0`
(`x % 1 = 0`, whatever the digests produce), so each `add` targets the single
counter twice.  The overflow pre-check compares the counter (here `14`) with
`max_count = 15` once, passes, and then increments it twice — after eight
`add` calls the counter holds `16 > max_count`. -/
theorem cbf_counter_range_cex :
    (cbfAddN (fun _ => 0) (fun _ => 0) "a" 8 (cbfInit 1 2 4)).max_count
      < (cbfAddN (fun _ => 0) (fun _ => 0) "a" 8 (cbfInit 1 2 4)).counters.getD 0 0 := by
  decide

/-- Counterexample to C3 as stated: in the reachable state after eight
colliding adds on `CountingBloomFilter(1, 2)` the single counter holds 16
while `max_count = 15`, so neither of the two target counters (both slot 0)
*equals* `max_count` — yet the code's `>=` pre-check makes the next `add`
return `false` instead of the success the claim's "otherwise" branch
demands. -/
theorem cbf_add_equals_check_cex :
    (cbfAddN (fun _ => 0) (fun _ => 0) "a" 8 (cbfInit 1 2 4)).counters.getD 0 0 = 16 ∧
    (cbfAddN (fun _ => 0) (fun _ => 0) "a" 8 (cbfInit 1 2 4)).max_count = 15 ∧
    cbfIndices (fun _ => 0) (fun _ => 0)
      (cbfAddN (fun _ => 0) (fun _ => 0) "a" 8 (cbfInit 1 2 4)) "a" = [0, 0] ∧
    (cbfAdd (fun _ => 0) (fun _ => 0)
      (cbfAddN (fun _ => 0) (fun _ => 0) "a" 8 (cbfInit 1 2 4)) "a").1 = false := by
  decide

/-- A blind-increment pass (the loop body of a successful `add`) keeps every
counter non-negative, colliding indices included. -/
theorem foldl_incr_nonneg (l : List Nat) (cs : List Int)
    (h : ∀ c ∈ cs, 0 ≤ c) :
    ∀ c ∈ l.foldl (fun cs idx => cs.set idx (cs.getD idx 0 + 1)) cs, 0 ≤ c := by
  induction l generalizing cs with
  | nil => exact h
  | cons x xs ih =>
    rw [List.foldl_cons]
    refine ih _ ?_
    intro c hc
    rcases List.mem_or_eq_of_mem_set hc with hm | rfl
    · exact h c hm
    · have h0 : 0 ≤ cs.getD x 0 := by
        rcases lt_or_le x cs.length with hx | hx
        · refine h _ ?_
          rw [List.getD_eq_getElem _ _ hx]
          exact List.getElem_mem hx
        · rw [List.getD_eq_default _ _ hx]
      omega

/-- A guarded-decrement pass (the loop body of `remove`) keeps every counter
non-negative, unconditionally. -/
theorem foldl_dec_nonneg (f : Nat → Nat) (l : List Nat) (cs : List Int)
    (h : ∀ c ∈ cs, 0 ≤ c) :
    ∀ c ∈ l.foldl (fun cs i =>
        if 0 < cs.getD (f i) 0 then cs.set (f i) (cs.getD (f i) 0 - 1) else cs) cs,
      0 ≤ c := by
  induction l generalizing cs with
  | nil => exact h
  | cons x xs ih =>
    rw [List.foldl_cons]
    refine ih _ ?_
    intro c hc
    split at hc
    · rename_i hpos
      rcases List.mem_or_eq_of_mem_set hc with hm | rfl
      · exact h c hm
      · omega
    · exact h c hc

/-- A guarded-decrement pass never raises a counter, so it preserves any
upper bound, unconditionally. -/
theorem foldl_dec_le (f : Nat → Nat) (l : List Nat) (cs : List Int) (M : Int)
    (h : ∀ c ∈ cs, c ≤ M) :
    ∀ c ∈ l.foldl (fun cs i =>
        if 0 < cs.getD (f i) 0 then cs.set (f i) (cs.getD (f i) 0 - 1) else cs) cs,
      c ≤ M := by
  induction l generalizing cs with
  | nil => exact h
  | cons x xs ih =>
    rw [List.foldl_cons]
    refine ih _ ?_
    intro c hc
    split at hc
    · rename_i hpos
      rcases List.mem_or_eq_of_mem_set hc with hm | rfl
      · exact h c hm
      · have hin : f x < cs.length := by
          by_contra hout
          rw [List.getD_eq_default _ _ (le_of_not_lt hout)] at hpos
          exact absurd hpos (by norm_num)
        have hmem : cs.getD (f x) 0 ∈ cs := by
          rw [List.getD_eq_getElem _ _ hin]
          exact List.getElem_mem hin
        have := h _ hmem
        omega
    · exact h c hc

/-- Amended C8: construction zeroes the counters; `add` and the guarded
decrements of `remove` preserve non-negativity unconditionally, so no
counter ever drops below 0 under any operation sequence; `remove` also
preserves every upper bound unconditionally; `add` preserves the
`max_count` bound when its `k` target indices are pairwise distinct, and
with colliding indices (the situation of `cbf_counter_range_cex`) still
preserves the relaxed bound `max_count + (k − 1)`, because the saturation
pre-check bounds a counter below `max_count` before its at most `k`
increments. -/
theorem cbf_counter_range (h1 h2 : String → Nat) :
    (∀ m k cb, ∀ c ∈ (cbfInit m k cb).counters,
        0 ≤ c ∧ c ≤ (cbfInit m k cb).max_count) ∧
    (∀ s item, (∀ c ∈ s.counters, 0 ≤ c) →
        (∀ c ∈ (cbfAdd h1 h2 s item).2.counters, 0 ≤ c) ∧
        (∀ c ∈ (cbfRemove h1 h2 s item).2.counters, 0 ≤ c)) ∧
    (∀ s item (M : Int), (∀ c ∈ s.counters, c ≤ M) →
        ∀ c ∈ (cbfRemove h1 h2 s item).2.counters, c ≤ M) ∧
    (∀ s item, s.counters.length = s.num_counters → 0 < s.num_counters →
        (cbfIndices h1 h2 s item).Nodup →
        (∀ c ∈ s.counters, c ≤ s.max_count) →
        ∀ c ∈ (cbfAdd h1 h2 s item).2.counters, c ≤ s.max_count) ∧
    (∀ s item, s.counters.length = s.num_counters → 0 < s.num_counters →
        (∀ c ∈ s.counters, c ≤ s.max_count + ((s.num_hashes - 1 : Nat) : Int)) →
        ∀ c ∈ (cbfAdd h1 h2 s item).2.counters,
          c ≤ s.max_count + ((s.num_hashes - 1 : Nat) : Int)) := by
  refine ⟨?_, ?_, ?_, ?_, ?_⟩
  · intro m k cb c hc
    rw [cbfInit] at hc
    simp only [List.eq_of_mem_replicate hc]
    have h1 : (1 : Nat) ≤ 1 <<< cb := by
      rw [Nat.shiftLeft_eq, one_mul]
      exact Nat.one_le_two_pow
    constructor
    · norm_num
    · simp only [cbfInit]
      omega
  · intro s item h0
    constructor
    · rcases hany : (cbfIndices h1 h2 s item).any
          (fun idx => s.max_count ≤ s.counters.getD idx 0) with _ | _
      · simp only [cbfAdd, hany]
        intro c hc
        simp only [Bool.false_eq_true, if_false] at hc
        exact foldl_incr_nonneg _ _ h0 c hc
      · simp only [cbfAdd, hany]
        intro c hc
        simp only [if_true] at hc
        exact h0 c hc
    · unfold cbfRemove
      split
      · exact h0
      · intro c hc
        exact foldl_dec_nonneg (cbfHash h1 h2 s.num_counters item) _ _ h0 c hc
  · intro s item M hM
    unfold cbfRemove
    split
    · exact hM
    · intro c hc
      exact foldl_dec_le (cbfHash h1 h2 s.num_counters item) _ _ M hM c hc
  · intro s item hlen hpos hnodup hub
    have hidx : ∀ idx ∈ cbfIndices h1 h2 s item, idx < s.counters.length := by
      intro idx hmem
      rw [hlen]
      rw [cbfIndices, List.mem_map] at hmem
      obtain ⟨i, -, rfl⟩ := hmem
      exact Nat.mod_lt _ hpos
    rcases hany : (cbfIndices h1 h2 s item).any
        (fun idx => s.max_count ≤ s.counters.getD idx 0) with _ | _
    · have hlt : ∀ idx ∈ cbfIndices h1 h2 s item,
          s.counters.getD idx 0 < s.max_count := by
        rw [List.any_eq_false] at hany
        intro idx hmem
        have := hany idx hmem
        simp only [decide_eq_true_eq, not_le] at this
        exact this
      simp only [cbfAdd, hany]
      intro c hc
      simp only [Bool.false_eq_true, if_false] at hc
      have hlen2 := foldl_incr_length (cbfIndices h1 h2 s item) s.counters
      rw [List.mem_iff_getElem] at hc
      obtain ⟨j, hj, rfl⟩ := hc
      rw [← List.getD_eq_getElem _ 0 hj]
      rw [foldl_incr_getD _ _ j hidx]
      have hj2 : j < s.counters.length := by rw [← hlen2]; exact hj
      have hmem2 : s.counters.getD j 0 ∈ s.counters := by
        rw [List.getD_eq_getElem _ 0 hj2]
        exact List.getElem_mem hj2
      have hbase := hub _ hmem2
      rcases Nat.eq_zero_or_pos ((cbfIndices h1 h2 s item).count j) with hcnt | hcnt
      · rw [hcnt]
        simpa using hbase
      · have hmem : j ∈ cbfIndices h1 h2 s item := List.count_pos_iff.mp hcnt
        have hone := List.nodup_iff_count_le_one.mp hnodup j
        have := hlt j hmem
        omega
    · simp only [cbfAdd, hany]
      intro c hc
      simp only [if_true] at hc
      exact hub c hc
  · intro s item hlen hpos hcap
    have hidx : ∀ idx ∈ cbfIndices h1 h2 s item, idx < s.counters.length := by
      intro idx hmem
      rw [hlen]
      rw [cbfIndices, List.mem_map] at hmem
      obtain ⟨i, -, rfl⟩ := hmem
      exact Nat.mod_lt _ hpos
    rcases hany : (cbfIndices h1 h2 s item).any
        (fun idx => s.max_count ≤ s.counters.getD idx 0) with _ | _
    · have hlt : ∀ idx ∈ cbfIndices h1 h2 s item,
          s.counters.getD idx 0 < s.max_count := by
        rw [List.any_eq_false] at hany
        intro idx hmem
        have := hany idx hmem
        simp only [decide_eq_true_eq, not_le] at this
        exact this
      simp only [cbfAdd, hany]
      intro c hc
      simp only [Bool.false_eq_true, if_false] at hc
      have hlen2 := foldl_incr_length (cbfIndices h1 h2 s item) s.counters
      rw [List.mem_iff_getElem] at hc
      obtain ⟨j, hj, rfl⟩ := hc
      rw [← List.getD_eq_getElem _ 0 hj]
      rw [foldl_incr_getD _ _ j hidx]
      have hj2 : j < s.counters.length := by rw [← hlen2]; exact hj
      have hmem2 : s.counters.getD j 0 ∈ s.counters := by
        rw [List.getD_eq_getElem _ 0 hj2]
        exact List.getElem_mem hj2
      have hbase := hcap _ hmem2
      have hklen : (cbfIndices h1 h2 s item).length = s.num_hashes := by
        rw [cbfIndices, List.length_map, List.length_range]
      have hcle : (cbfIndices h1 h2 s item).count j ≤ s.num_hashes := by
        rw [← hklen]
        exact List.count_le_length _ _
      rcases Nat.eq_zero_or_pos ((cbfIndices h1 h2 s item).count j) with hcnt | hcnt
      · rw [hcnt]
        simpa using hbase
      · have hmem : j ∈ cbfIndices h1 h2 s item := List.count_pos_iff.mp hcnt
        have := hlt j hmem
        omega
    · simp only [cbfAdd, hany]
      intro c hc
      simp only [if_true] at hc
      exact hcap c hc

/-- Witness for (amended) C8 at a concrete filter: after one `add` with two
distinct target indices, the counter value 1 at slot 1 is non-negative and
within `max_count`. -/
theorem cbf_counter_range_witness :
    (0 : Int) ≤ (cbfAdd (fun _ => 0) (fun _ => 1) (cbfInit 4 2 4) "a").2.counters.getD 1 0 ∧
    (cbfAdd (fun _ => 0) (fun _ => 1) (cbfInit 4 2 4) "a").2.counters.getD 1 0
      ≤ (cbfInit 4 2 4).max_count := by
  constructor
  · exact ((cbf_counter_range (fun _ => 0) (fun _ => 1)).2.1 (cbfInit 4 2 4) "a"
      (by decide)).1
      ((cbfAdd (fun _ => 0) (fun _ => 1) (cbfInit 4 2 4) "a").2.counters.getD 1 0)
      (by decide)
  · exact (cbf_counter_range (fun _ => 0) (fun _ => 1)).2.2.2.1 (cbfInit 4 2 4) "a"
      (by decide) (by decide) (by decide) (by decide)
      ((cbfAdd (fun _ => 0) (fun _ => 1) (cbfInit 4 2 4) "a").2.counters.getD 1 0)
      (by decide)

/-! ## Count-Min sketch (`count_min_sketch.py`, class `CountMinSketch`) -/

/-- Read `table[r][c]` (0 outside the allocated matrix). -/
def getCell (t : List (List Int)) (r c : Nat) : Int :=
  (t.getD r []).getD c 0

/-- Write `table[r][c] = v`. -/
def setCell (t : List (List Int)) (r c : Nat) (v : Int) : List (List Int) :=
  t.set r ((t.getD r []).set c v)

/-- State of `CountMinSketch`. -/
structure CountMinSketch where
  width : Nat
  depth : Nat
  table : List (List Int)
  total_count : Int
deriving DecidableEq

/-- `CountMinSketch.__init__`: a `depth × width` zero matrix (no validation). -/
def cmsInit (width depth : Nat) : CountMinSketch :=
  { width := width, depth := depth,
    table := List.replicate depth (List.replicate width 0),
    total_count := 0 }

/-- `CountMinSketch._hash`: the salted SHA-256 digest (abstracted as `h`)
reduced modulo `width`. -/
def cmsHash (h : Nat → String → Nat) (width : Nat) (item : String) (row : Nat) : Nat :=
  h row item % width

/-- The row loop of `CountMinSketch.update`: for each `row < d`,
`table[row][self._hash(item, row)] += count`. -/
def cmsUpdateRows (h : Nat → String → Nat) (width : Nat) (item : String) (count : Int) :
    Nat → List (List Int) → List (List Int)
  | 0, t => t
  | row + 1, t =>
      let t' := cmsUpdateRows h width item count row t
      setCell t' row (cmsHash h width item row)
        (getCell t' row (cmsHash h width item row) + count)

/-- `CountMinSketch.update`. -/
def cmsUpdate (h : Nat → String → Nat) (s : CountMinSketch) (item : String) (count : Int) :
    CountMinSketch :=
  { s with table := cmsUpdateRows h s.width item count s.depth s.table,
           total_count := s.total_count + count }

/-- `CountMinSketch.query`: minimum of the `d` addressed cells, starting from
`float('inf')` (modelled as `⊤` in `WithTop Int`; for `depth ≥ 1` the result
is the finite minimum, exactly the integer the Python code returns). -/
def cmsQuery (h : Nat → String → Nat) (s : CountMinSketch) (item : String) : WithTop Int :=
  (List.range s.depth).foldl
    (fun m row => min m ((getCell s.table row (cmsHash h s.width item row) : Int) : WithTop Int))
    ⊤

/-- A stream of `update` calls, in order. -/
def cmsRun (h : Nat → String → Nat) (s : CountMinSketch) (ops : List (String × Int)) :
    CountMinSketch :=
  ops.foldl (fun st op => cmsUpdate h st op.1 op.2) s

/-- The sum of the counts of the `update x` calls of a stream (the claim's
"true frequency"). -/
def trueCount (ops : List (String × Int)) (x : String) : Int :=
  ((ops.filter (fun op => op.1 = x)).map (fun op => op.2)).sum

/-! ### Count-Min table lemmas -/

/-- Dimension invariant of the counter matrix. -/
def wfTable (w d : Nat) (t : List (List Int)) : Prop :=
  t.length = d ∧ ∀ row ∈ t, row.length = w

theorem wfTable_replicate (w d : Nat) :
    wfTable w d (List.replicate d (List.replicate w 0)) := by
  refine ⟨by simp, ?_⟩
  intro row hrow
  rw [List.eq_of_mem_replicate hrow]
  simp

theorem getD_list_set_self {l : List (List Int)} {i : Nat} {v : List Int}
    (h : i < l.length) : (l.set i v).getD i [] = v := by
  rw [List.getD_eq_getElem _ _ (by simpa using h)]
  simp

theorem getD_list_set_ne {l : List (List Int)} {i j : Nat} {v : List Int} (h : i ≠ j) :
    (l.set i v).getD j [] = l.getD j [] := by
  rcases lt_or_le j l.length with hj | hj
  · rw [List.getD_eq_getElem _ _ (by simpa using hj), List.getD_eq_getElem _ _ hj]
    simp [List.getElem_set_ne h]
  · rw [List.getD_eq_default _ _ (by simpa using hj), List.getD_eq_default _ _ hj]

theorem wfTable_setCell {w d : Nat} {t : List (List Int)} (hwf : wfTable w d t)
    (r c : Nat) (v : Int) : wfTable w d (setCell t r c v) := by
  obtain ⟨hlen, hrows⟩ := hwf
  rcases lt_or_le r t.length with hr | hr
  · refine ⟨by rw [setCell, List.length_set]; exact hlen, ?_⟩
    intro row hrow
    rcases List.mem_or_eq_of_mem_set hrow with hmem | rfl
    · exact hrows row hmem
    · rw [List.length_set]
      have : t.getD r [] ∈ t := by
        rw [List.getD_eq_getElem _ _ hr]
        exact List.getElem_mem hr
      exact hrows _ this
  · rw [setCell, List.set_eq_of_length_le hr]
    exact ⟨hlen, hrows⟩

theorem getCell_setCell_self {t : List (List Int)} {r c : Nat} {v : Int}
    (hr : r < t.length) (hc : c < (t.getD r []).length) :
    getCell (setCell t r c v) r c = v := by
  rw [getCell, setCell, getD_list_set_self hr, getD_int_set_self hc]

theorem getCell_setCell_ne {t : List (List Int)} {r c r' c' : Nat} {v : Int}
    (h : r ≠ r' ∨ c ≠ c') :
    getCell (setCell t r c v) r' c' = getCell t r' c' := by
  rcases h with hr | hc
  · rw [getCell, setCell, getD_list_set_ne hr, getCell]
  · by_cases hr : r = r'
    · subst hr
      rcases lt_or_le r t.length with hin | hout
      · rw [getCell, setCell, getD_list_set_self hin, getD_int_set_ne hc, getCell]
      · rw [getCell, setCell, List.set_eq_of_length_le (by simpa using hout), getCell]
    · rw [getCell, setCell, getD_list_set_ne hr, getCell]

theorem cmsUpdateRows_wf (h : Nat → String → Nat) (w : Nat) (item : String) (count : Int)
    (d' : Nat) {w' d : Nat} {t : List (List Int)} (hwf : wfTable w' d t) :
    wfTable w' d (cmsUpdateRows h w item count d' t) := by
  induction d' with
  | zero => exact hwf
  | succ n ih => exact wfTable_setCell ih _ _ _

/-- Cell-level description of the `update` row loop: for `0 < w`, the first
`d'` rows each gain `count` at their hashed column, everything else is
untouched. -/
theorem getCell_cmsUpdateRows (h : Nat → String → Nat) {w : Nat} (hw : 0 < w)
    (item : String) (count : Int) (d' : Nat) {d : Nat} {t : List (List Int)}
    (hwf : wfTable w d t) (hd' : d' ≤ d) (r c : Nat) :
    getCell (cmsUpdateRows h w item count d' t) r c
      = getCell t r c + (if r < d' ∧ c = cmsHash h w item r then count else 0) := by
  induction d' with
  | zero => simp [cmsUpdateRows]
  | succ n ih =>
    have hwf' : wfTable w d (cmsUpdateRows h w item count n t) :=
      cmsUpdateRows_wf h w item count n hwf
    have hrow : n < (cmsUpdateRows h w item count n t).length := by
      rw [hwf'.1]; omega
    have hmem : (cmsUpdateRows h w item count n t).getD n []
        ∈ cmsUpdateRows h w item count n t := by
      rw [List.getD_eq_getElem _ _ hrow]
      exact List.getElem_mem hrow
    have hcol : cmsHash h w item n <
        ((cmsUpdateRows h w item count n t).getD n []).length := by
      rw [hwf'.2 _ hmem]
      exact Nat.mod_lt _ hw
    rw [cmsUpdateRows]
    by_cases hr : r = n
    · subst hr
      by_cases hc : c = cmsHash h w item r
      · subst hc
        rw [getCell_setCell_self hrow hcol, ih (by omega)]
        have h1 : ¬(r < r ∧ cmsHash h w item r = cmsHash h w item r) :=
          fun hh => absurd hh.1 (lt_irrefl r)
        have h2 : r < r + 1 ∧ cmsHash h w item r = cmsHash h w item r :=
          ⟨Nat.lt_succ_self r, rfl⟩
        rw [if_neg h1, if_pos h2]
        ring
      · rw [getCell_setCell_ne (Or.inr (fun he => hc he.symm)), ih (by omega)]
        have h1 : ¬(r < r ∧ c = cmsHash h w item r) :=
          fun hh => absurd hh.1 (lt_irrefl r)
        have h2 : ¬(r < r + 1 ∧ c = cmsHash h w item r) := fun hh => hc hh.2
        rw [if_neg h1, if_neg h2]
    · rw [getCell_setCell_ne (Or.inl (fun he => hr he.symm)), ih (by omega)]
      congr 1
      by_cases hP : c = cmsHash h w item r
      · by_cases hlt : r < n
        · rw [if_pos ⟨hlt, hP⟩, if_pos ⟨by omega, hP⟩]
        · have hlt' : ¬(r < n + 1) := by omega
          rw [if_neg (fun hh => hlt hh.1), if_neg (fun hh => hlt' hh.1)]
      · rw [if_neg (fun hh => hP hh.2), if_neg (fun hh => hP hh.2)]

theorem cmsUpdate_width (h : Nat → String → Nat) (s : CountMinSketch) (item : String)
    (count : Int) : (cmsUpdate h s item count).width = s.width := rfl

theorem cmsUpdate_depth (h : Nat → String → Nat) (s : CountMinSketch) (item : String)
    (count : Int) : (cmsUpdate h s item count).depth = s.depth := rfl

theorem cmsRun_width (h : Nat → String → Nat) (ops : List (String × Int))
    (s : CountMinSketch) : (cmsRun h s ops).width = s.width := by
  induction ops generalizing s with
  | nil => rfl
  | cons op ops ih => exact (ih _).trans rfl

theorem cmsRun_depth (h : Nat → String → Nat) (ops : List (String × Int))
    (s : CountMinSketch) : (cmsRun h s ops).depth = s.depth := by
  induction ops generalizing s with
  | nil => rfl
  | cons op ops ih => exact (ih _).trans rfl

theorem cmsUpdate_wf (h : Nat → String → Nat) (s : CountMinSketch) (item : String)
    (count : Int) (hwf : wfTable s.width s.depth s.table) :
    wfTable s.width s.depth (cmsUpdate h s item count).table :=
  cmsUpdateRows_wf h s.width item count s.depth hwf

theorem getCell_zero_table (w d r c : Nat) :
    getCell (List.replicate d (List.replicate w 0)) r c = 0 := by
  rw [getCell]
  rcases lt_or_le r d with hr | hr
  · have houter : (List.replicate d (List.replicate w (0 : Int))).getD r []
        = List.replicate w 0 := by
      rw [List.getD_eq_getElem _ _ (by simpa using hr)]
      simp
    rw [houter]
    rcases lt_or_le c w with hc | hc
    · rw [List.getD_eq_getElem _ _ (by simpa using hc)]
      simp
    · rw [List.getD_eq_default _ _ (by simpa using hc)]
  · have houter : (List.replicate d (List.replicate w (0 : Int))).getD r [] = [] :=
      List.getD_eq_default _ _ (by simpa using hr)
    rw [houter]
    simp

theorem trueCount_cons (y : String) (c : Int) (ops : List (String × Int)) (x : String) :
    trueCount ((y, c) :: ops) x = (if y = x then c else 0) + trueCount ops x := by
  rw [trueCount, trueCount, List.filter_cons]
  by_cases hy : y = x
  · simp [hy]
  · simp [hy]

/-- Along a stream of non-negative updates, each of the `d` cells addressed by
`x` grows by at least the total count recorded for `x`. -/
theorem cmsRun_cell_ge (h : Nat → String → Nat) (x : String) (ops : List (String × Int))
    (hnn : ∀ op ∈ ops, 0 ≤ op.2) :
    ∀ s : CountMinSketch, wfTable s.width s.depth s.table → 0 < s.width →
    ∀ r, r < s.depth →
    getCell s.table r (cmsHash h s.width x r) + trueCount ops x
      ≤ getCell (cmsRun h s ops).table r (cmsHash h s.width x r) := by
  induction ops with
  | nil =>
    intro s hwf hw r hr
    simp [cmsRun, trueCount]
  | cons op ops ih =>
    intro s hwf hw r hr
    obtain ⟨y, cnt⟩ := op
    have hrun : cmsRun h s ((y, cnt) :: ops) = cmsRun h (cmsUpdate h s y cnt) ops := rfl
    have hupd : getCell (cmsUpdate h s y cnt).table r (cmsHash h s.width x r)
        = getCell s.table r (cmsHash h s.width x r)
          + (if r < s.depth ∧ cmsHash h s.width x r = cmsHash h s.width y r
             then cnt else 0) :=
      getCell_cmsUpdateRows h hw y cnt s.depth hwf (le_refl _) r (cmsHash h s.width x r)
    have hIH := ih (fun op hop => hnn op (List.mem_cons_of_mem _ hop))
      (cmsUpdate h s y cnt)
      (by rw [cmsUpdate_width, cmsUpdate_depth]; exact cmsUpdate_wf h s y cnt hwf)
      (by rw [cmsUpdate_width]; exact hw) r (by rw [cmsUpdate_depth]; exact hr)
    rw [cmsUpdate_width] at hIH
    rw [hrun, trueCount_cons]
    refine le_trans ?_ hIH
    rw [hupd]
    by_cases hy : y = x
    · subst hy
      rw [if_pos rfl, if_pos ⟨hr, rfl⟩]
      omega
    · rw [if_neg hy]
      have : (0 : Int) ≤ (if r < s.depth ∧ cmsHash h s.width x r = cmsHash h s.width y r
          then cnt else 0) := by
        split
        · exact hnn (y, cnt) (List.mem_cons_self _ _)
        · exact le_refl 0
      omega

theorem foldl_min_ge (B : Int) (f : Nat → Int) (l : List Nat) (acc : WithTop Int)
    (hacc : (B : WithTop Int) ≤ acc) (hall : ∀ r ∈ l, B ≤ f r) :
    (B : WithTop Int) ≤ l.foldl (fun m r => min m ((f r : Int) : WithTop Int)) acc := by
  induction l generalizing acc with
  | nil => exact hacc
  | cons r rs ih =>
    rw [List.foldl_cons]
    refine ih _ (le_min hacc ?_) (fun r' hr' => hall r' (List.mem_cons_of_mem _ hr'))
    exact_mod_cast hall r (List.mem_cons_self _ _)

/-- C2: on a sketch of positive dimensions, after any stream of `update`
calls with non-negative counts, `query x` is at least the summed count of
the `update x` calls of the stream: the estimate never under-counts. -/
theorem cms_no_undercount (h : Nat → String → Nat) (w d : Nat) (hw : 0 < w) (hd : 0 < d)
    (ops : List (String × Int)) (hnn : ∀ op ∈ ops, 0 ≤ op.2) (x : String) :
    ((trueCount ops x : Int) : WithTop Int) ≤ cmsQuery h (cmsRun h (cmsInit w d) ops) x := by
  have hwid : (cmsRun h (cmsInit w d) ops).width = w := cmsRun_width h ops _
  have hdep : (cmsRun h (cmsInit w d) ops).depth = d := cmsRun_depth h ops _
  rw [cmsQuery, hwid, hdep]
  refine foldl_min_ge _ _ _ _ le_top ?_
  intro r hr
  have hcell := cmsRun_cell_ge h x ops hnn (cmsInit w d)
    (wfTable_replicate w d) hw r (by simpa using List.mem_range.mp hr)
  simp only [cmsInit] at hcell
  rw [getCell_zero_table] at hcell
  simpa using hcell

/-- Witness for C2 at a concrete sketch, digest and stream. -/
theorem cms_no_undercount_witness :
    ((trueCount [("a", 1), ("bb", 2), ("a", 3)] "a" : Int) : WithTop Int)
      ≤ cmsQuery (fun r s => s.length + r)
          (cmsRun (fun r s => s.length + r) (cmsInit 2 1)
            [("a", 1), ("bb", 2), ("a", 3)]) "a" :=
  cms_no_undercount (fun r s => s.length + r) 2 1 (by norm_num) (by norm_num)
    [("a", 1), ("bb", 2), ("a", 3)] (by decide) "a"

/-! ### Count-Min merge (`CountMinSketch.merge`) -/

/-- The inner column loop of `merge`:
`merged.table[row][col] = self.table[row][col] + other.table[row][col]`. -/
def cmsMergeCols (ta tb : List (List Int)) (row : Nat) :
    Nat → List (List Int) → List (List Int)
  | 0, t => t
  | col + 1, t =>
      setCell (cmsMergeCols ta tb row col t) row col
        (getCell ta row col + getCell tb row col)

/-- The outer row loop of `merge`. -/
def cmsMergeRows (ta tb : List (List Int)) (width : Nat) :
    Nat → List (List Int) → List (List Int)
  | 0, t => t
  | row + 1, t => cmsMergeCols ta tb row width (cmsMergeRows ta tb width row t)

/-- `CountMinSketch.merge`: dimension check, fresh sketch
(`CountMinSketch(self.width, self.depth)`), cell-wise sums, summed
`total_count`. -/
def cmsMerge (s o : CountMinSketch) : Except PyErr CountMinSketch :=
  if s.width ≠ o.width ∨ s.depth ≠ o.depth then
    .error (.valueError "Sketches must have the same dimensions")
  else
    .ok { width := s.width, depth := s.depth,
          table := cmsMergeRows s.table o.table s.width s.depth
            (cmsInit s.width s.depth).table,
          total_count := s.total_count + o.total_count }

theorem cmsMergeCols_wf (ta tb : List (List Int)) (row w' : Nat) {w d : Nat}
    {t : List (List Int)} (hwf : wfTable w d t) :
    wfTable w d (cmsMergeCols ta tb row w' t) := by
  induction w' with
  | zero => exact hwf
  | succ col ih => exact wfTable_setCell ih _ _ _

theorem cmsMergeRows_wf (ta tb : List (List Int)) (w' d' : Nat) {w d : Nat}
    {t : List (List Int)} (hwf : wfTable w d t) :
    wfTable w d (cmsMergeRows ta tb w' d' t) := by
  induction d' with
  | zero => exact hwf
  | succ row ih => exact cmsMergeCols_wf ta tb row w' ih

theorem getCell_cmsMergeCols (ta tb : List (List Int)) (row w' : Nat) {w d : Nat}
    {t : List (List Int)} (hwf : wfTable w d t) (hrow : row < d) (hw' : w' ≤ w)
    (r c : Nat) :
    getCell (cmsMergeCols ta tb row w' t) r c
      = if r = row ∧ c < w' then getCell ta row c + getCell tb row c
        else getCell t r c := by
  induction w' with
  | zero => simp [cmsMergeCols]
  | succ col ih =>
    have hwf' : wfTable w d (cmsMergeCols ta tb row col t) :=
      cmsMergeCols_wf ta tb row col hwf
    have hrowlen : row < (cmsMergeCols ta tb row col t).length := by
      rw [hwf'.1]; exact hrow
    have hcollen : col < ((cmsMergeCols ta tb row col t).getD row []).length := by
      have hmem : (cmsMergeCols ta tb row col t).getD row []
          ∈ cmsMergeCols ta tb row col t := by
        rw [List.getD_eq_getElem _ _ hrowlen]
        exact List.getElem_mem hrowlen
      rw [hwf'.2 _ hmem]
      omega
    rw [cmsMergeCols]
    by_cases h1 : r = row
    · subst h1
      by_cases h2 : c = col
      · subst h2
        rw [getCell_setCell_self hrowlen hcollen,
          if_pos ⟨rfl, Nat.lt_succ_self c⟩]
      · rw [getCell_setCell_ne (Or.inr (fun he => h2 he.symm)), ih (by omega)]
        by_cases h3 : c < col
        · rw [if_pos ⟨rfl, h3⟩, if_pos ⟨rfl, by omega⟩]
        · rw [if_neg (fun hh => h3 hh.2), if_neg (fun hh => absurd hh.2 (by omega))]
    · rw [getCell_setCell_ne (Or.inl (fun he => h1 he.symm)), ih (by omega)]
      rw [if_neg (fun hh => h1 hh.1), if_neg (fun hh => h1 hh.1)]

theorem getCell_cmsMergeRows (ta tb : List (List Int)) (d' : Nat) {w d : Nat}
    {t : List (List Int)} (hwf : wfTable w d t) (hd' : d' ≤ d) (r c : Nat) :
    getCell (cmsMergeRows ta tb w d' t) r c
      = if r < d' ∧ c < w then getCell ta r c + getCell tb r c
        else getCell t r c := by
  induction d' with
  | zero => simp [cmsMergeRows]
  | succ row ih =>
    rw [cmsMergeRows]
    rw [getCell_cmsMergeCols ta tb row w
      (cmsMergeRows_wf ta tb w row hwf) (by omega) (le_refl w) r c]
    by_cases h1 : r = row
    · subst h1
      by_cases h2 : c < w
      · rw [if_pos ⟨rfl, h2⟩, if_pos ⟨Nat.lt_succ_self r, h2⟩]
      · rw [if_neg (fun hh => h2 hh.2), ih (by omega),
          if_neg (fun hh => absurd hh.1 (lt_irrefl r)),
          if_neg (fun hh => h2 hh.2)]
    · rw [if_neg (fun hh => h1 hh.1), ih (by omega)]
      by_cases h2 : r < row ∧ c < w
      · rw [if_pos h2, if_pos ⟨by omega, h2.2⟩]
      · rw [if_neg h2, if_neg (fun hh => h2 ⟨by omega, hh.2⟩)]

/-- Cells of a freshly merged table: pointwise sums inside the matrix. -/
theorem getCell_cmsMergeTable (ta tb : List (List Int)) (w d r c : Nat) :
    getCell (cmsMergeRows ta tb w d (List.replicate d (List.replicate w 0))) r c
      = if r < d ∧ c < w then getCell ta r c + getCell tb r c else 0 := by
  rw [getCell_cmsMergeRows ta tb d (wfTable_replicate w d) (le_refl d) r c]
  by_cases h : r < d ∧ c < w
  · rw [if_pos h, if_pos h]
  · rw [if_neg h, if_neg h, getCell_zero_table]

/-- Two tables of the same dimensions with equal cells are equal. -/
theorem tableExt {w d : Nat} {t1 t2 : List (List Int)} (h1 : wfTable w d t1)
    (h2 : wfTable w d t2)
    (h : ∀ r < d, ∀ c < w, getCell t1 r c = getCell t2 r c) : t1 = t2 := by
  apply List.ext_getElem (by rw [h1.1, h2.1])
  intro r hr1 hr2
  apply List.ext_getElem
  · rw [h1.2 _ (List.getElem_mem hr1), h2.2 _ (List.getElem_mem hr2)]
  · intro c hc1 hc2
    have hrd : r < d := by rw [← h1.1]; exact hr1
    have hcw : c < w := by rw [← h1.2 _ (List.getElem_mem hr1)]; exact hc1
    have hcell := h r hrd c hcw
    rw [getCell, getCell, List.getD_eq_getElem _ _ hr1, List.getD_eq_getElem _ _ hr2,
      List.getD_eq_getElem _ _ hc1, List.getD_eq_getElem _ _ hc2] at hcell
    exact hcell

theorem cmsMerge_ok {s o : CountMinSketch} (hw : s.width = o.width)
    (hd : s.depth = o.depth) :
    cmsMerge s o = .ok { width := s.width, depth := s.depth,
                         table := cmsMergeRows s.table o.table s.width s.depth
                           (cmsInit s.width s.depth).table,
                         total_count := s.total_count + o.total_count } := by
  rw [cmsMerge, if_neg (by tauto)]

/-! ## HyperLogLog (`hyperloglog.py`, class `HyperLogLog`) -/

/-- State of `HyperLogLog`.  The float field `alpha` (bias-correction
constant) is read only by the unmodelled `count()` estimator and is omitted
(it is a function of `precision` alone). -/
structure HyperLogLog where
  precision : Nat
  num_registers : Nat
  registers : List Nat
deriving DecidableEq

/-- The state `HyperLogLog.__init__` builds once validation has passed:
`m = 2^p` zero registers. -/
def hllInitState (precision : Nat) : HyperLogLog :=
  { precision := precision, num_registers := 1 <<< precision,
    registers := List.replicate (1 <<< precision) 0 }

/-- `HyperLogLog.__init__`: `ValueError` unless `4 <= precision <= 18`. -/
def hllInit (precision : Nat) : Except PyErr HyperLogLog :=
  if ¬(4 ≤ precision ∧ precision ≤ 18) then
    .error (.valueError "Precision must be between 4 and 18")
  else
    .ok (hllInitState precision)

/-- The descending bit scan of `HyperLogLog._count_leading_zeros` for a
non-zero value; the first argument of the recursion is the number of bit
positions still to test (`i + 1` means position `i` is tested next), the
second the zeros counted so far. -/
def clzGo (value : Nat) : Nat → Nat → Nat
  | 0, zeros => zeros + 1
  | i + 1, zeros =>
      if value &&& (1 <<< i) ≠ 0 then zeros + 1 else clzGo value i (zeros + 1)

/-- `HyperLogLog._count_leading_zeros` (`max_bits + 1` for value 0; otherwise
the zero count up to and including the first 1 bit). -/
def countLeadingZeros (value maxBits : Nat) : Nat :=
  if value = 0 then maxBits + 1 else clzGo value maxBits 0

/-- `HyperLogLog.add`, with the 64-bit digest prefix
(`int.from_bytes(sha256(..).digest()[:8])`, a value below `2^64`) abstracted
as `h` reduced mod `2^64`. -/
def hllAdd (h : String → Nat) (s : HyperLogLog) (item : String) : HyperLogLog :=
  let hashValue := h item % 2 ^ 64
  let registerIndex := hashValue >>> (64 - s.precision)
  let remainingBits := hashValue &&& ((1 <<< (64 - s.precision)) - 1)
  let rho := countLeadingZeros remainingBits (64 - s.precision)
  { s with
    registers := s.registers.set registerIndex
        (max (s.registers.getD registerIndex 0) rho) }

/-- A stream of `add` calls, in order. -/
def hllRun (h : String → Nat) (s : HyperLogLog) (items : List String) : HyperLogLog :=
  items.foldl (fun st it => hllAdd h st it) s

/-- The register loop of `HyperLogLog.merge`:
`merged.registers[i] = max(self.registers[i], other.registers[i])` for
`i` in `range(self.num_registers)`. -/
def hllMergeFill (ra rb : List Nat) : Nat → List Nat → List Nat
  | 0, regs => regs
  | i + 1, regs =>
      (hllMergeFill ra rb i regs).set i (max (ra.getD i 0) (rb.getD i 0))

/-- `HyperLogLog.merge`: precision check, fresh `HyperLogLog(self.precision)`
(which re-runs `__init__` and its validation), element-wise max. -/
def hllMerge (s o : HyperLogLog) : Except PyErr HyperLogLog :=
  if s.precision ≠ o.precision then
    .error (.valueError "HyperLogLogs must have the same precision")
  else
    (hllInit s.precision).map (fun merged =>
      { merged with
        registers :=
          hllMergeFill s.registers o.registers s.num_registers merged.registers })

/-! ### Register lemmas -/

theorem natListExt {l1 l2 : List Nat} (hlen : l1.length = l2.length)
    (h : ∀ j, j < l1.length → l1.getD j 0 = l2.getD j 0) : l1 = l2 := by
  apply List.ext_getElem hlen
  intro j h1 h2
  have hj := h j h1
  rw [List.getD_eq_getElem _ _ h1, List.getD_eq_getElem _ _ h2] at hj
  exact hj

theorem getD_nat_le {l : List Nat} {M : Nat} (h : ∀ r ∈ l, r ≤ M) (i : Nat) :
    l.getD i 0 ≤ M := by
  rcases lt_or_le i l.length with hi | hi
  · refine h _ ?_
    rw [List.getD_eq_getElem _ _ hi]
    exact List.getElem_mem hi
  · rw [List.getD_eq_default _ _ hi]
    exact Nat.zero_le M

theorem getD_nat_set_self {l : List Nat} {i : Nat} {v : Nat} (h : i < l.length) :
    (l.set i v).getD i 0 = v := getD_set_self h

theorem clzGo_le (value : Nat) : ∀ i zeros, clzGo value i zeros ≤ i + zeros + 1 := by
  intro i
  induction i with
  | zero => intro zeros; rw [clzGo]; omega
  | succ n ih =>
    intro zeros
    rw [clzGo]
    split
    · omega
    · have := ih (zeros + 1)
      omega

theorem countLeadingZeros_le (value maxBits : Nat) :
    countLeadingZeros value maxBits ≤ maxBits + 1 := by
  rw [countLeadingZeros]
  split
  · exact le_refl _
  · have := clzGo_le value maxBits 0
    omega

theorem hllAdd_precision (h : String → Nat) (s : HyperLogLog) (item : String) :
    (hllAdd h s item).precision = s.precision := rfl

theorem hllAdd_num_registers (h : String → Nat) (s : HyperLogLog) (item : String) :
    (hllAdd h s item).num_registers = s.num_registers := rfl

theorem hllAdd_length (h : String → Nat) (s : HyperLogLog) (item : String) :
    (hllAdd h s item).registers.length = s.registers.length := by
  rw [hllAdd]
  simp

theorem hllRun_precision (h : String → Nat) (items : List String) (s : HyperLogLog) :
    (hllRun h s items).precision = s.precision := by
  induction items generalizing s with
  | nil => rfl
  | cons x xs ih => exact (ih _).trans rfl

theorem hllRun_num_registers (h : String → Nat) (items : List String) (s : HyperLogLog) :
    (hllRun h s items).num_registers = s.num_registers := by
  induction items generalizing s with
  | nil => rfl
  | cons x xs ih => exact (ih _).trans rfl

theorem hllRun_length (h : String → Nat) (items : List String) (s : HyperLogLog) :
    (hllRun h s items).registers.length = s.registers.length := by
  induction items generalizing s with
  | nil => rfl
  | cons x xs ih => exact (ih _).trans (hllAdd_length h s x)

/-- The register index addressed by `add` is below `2^p` (for `p ≤ 64`). -/
theorem hllIndex_lt (h : String → Nat) (item : String) {p : Nat} (hp : p ≤ 64) :
    (h item % 2 ^ 64) >>> (64 - p) < 2 ^ p := by
  rw [Nat.shiftRight_eq_div_pow]
  have hlt : h item % 2 ^ 64 < 2 ^ 64 := Nat.mod_lt _ (Nat.two_pow_pos 64)
  rw [Nat.div_lt_iff_lt_mul (Nat.two_pow_pos (64 - p))]
  calc h item % 2 ^ 64 < 2 ^ 64 := hlt
    _ = 2 ^ p * 2 ^ (64 - p) := by rw [← pow_add]; congr 1; omega

theorem getD_replicate_zero (n j : Nat) : (List.replicate n (0 : Nat)).getD j 0 = 0 := by
  rcases lt_or_le j n with hj | hj
  · rw [List.getD_eq_getElem _ _ (by simpa using hj)]
    simp
  · rw [List.getD_eq_default _ _ (by simpa using hj)]

theorem hllInitState_precision (p : Nat) : (hllInitState p).precision = p := rfl

theorem hllInitState_length (p : Nat) : (hllInitState p).registers.length = 2 ^ p := by
  rw [hllInitState]
  simp [Nat.shiftLeft_eq]

theorem hllInit_ok {p : Nat} (hp : 4 ≤ p ∧ p ≤ 18) :
    hllInit p = .ok (hllInitState p) := by
  rw [hllInit, if_neg (not_not_intro hp)]

/-- Pointwise description of `add`: the addressed register moves up to
`max(old, rho)`, every other register is untouched. -/
theorem hllAdd_getD (h : String → Nat) (s : HyperLogLog) (item : String)
    (hp : s.precision ≤ 64) (hlen : s.registers.length = 2 ^ s.precision) (j : Nat) :
    (hllAdd h s item).registers.getD j 0
      = if j = (h item % 2 ^ 64) >>> (64 - s.precision)
        then max (s.registers.getD j 0)
          (countLeadingZeros ((h item % 2 ^ 64) &&& ((1 <<< (64 - s.precision)) - 1))
            (64 - s.precision))
        else s.registers.getD j 0 := by
  simp only [hllAdd]
  by_cases hj : j = (h item % 2 ^ 64) >>> (64 - s.precision)
  · rw [if_pos hj, hj]
    exact getD_nat_set_self (by rw [hlen]; exact hllIndex_lt h item hp)
  · rw [if_neg hj]
    exact getD_set_ne (fun he => hj he.symm)

theorem hllMergeFill_length (ra rb : List Nat) (n : Nat) (regs : List Nat) :
    (hllMergeFill ra rb n regs).length = regs.length := by
  induction n with
  | zero => rfl
  | succ i ih => rw [hllMergeFill, List.length_set, ih]

theorem hllMergeFill_getD (ra rb : List Nat) (n : Nat) (regs : List Nat)
    (hn : n ≤ regs.length) (j : Nat) :
    (hllMergeFill ra rb n regs).getD j 0
      = if j < n then max (ra.getD j 0) (rb.getD j 0) else regs.getD j 0 := by
  induction n with
  | zero => simp [hllMergeFill]
  | succ i ih =>
    rw [hllMergeFill]
    by_cases hj : j = i
    · subst hj
      rw [getD_nat_set_self (by rw [hllMergeFill_length]; omega), if_pos (by omega)]
    · rw [getD_set_ne (fun he => hj he.symm), ih (by omega)]
      by_cases hji : j < i
      · rw [if_pos hji, if_pos (by omega)]
      · rw [if_neg hji, if_neg (by omega)]

theorem hllMergeFill_eq_zipWith (ra rb : List Nat) (n : Nat)
    (hra : ra.length = n) (hrb : rb.length = n) :
    hllMergeFill ra rb n (List.replicate n 0) = List.zipWith max ra rb := by
  apply natListExt
  · rw [hllMergeFill_length]
    simp [hra, hrb]
  · intro j hj
    rw [hllMergeFill_length] at hj
    simp only [List.length_replicate] at hj
    rw [hllMergeFill_getD _ _ _ _ (by simp) j, if_pos hj]
    have hz : (List.zipWith max ra rb).getD j 0 = max (ra.getD j 0) (rb.getD j 0) := by
      rw [List.getD_eq_getElem _ _ (by simp [hra, hrb]; omega)]
      rw [List.getElem_zipWith]
      rw [List.getD_eq_getElem ra 0 (by omega), List.getD_eq_getElem rb 0 (by omega)]
    rw [hz]

/-- Registers after a stream from an arbitrary start state: pointwise max of
the start registers and the registers the same stream produces from the
fresh state. -/
theorem hllRun_getD_max (h : String → Nat) (p : Nat) (hp : p ≤ 64)
    (items : List String) :
    ∀ A : HyperLogLog, A.precision = p → A.registers.length = 2 ^ p →
    ∀ j, (hllRun h A items).registers.getD j 0
      = max (A.registers.getD j 0)
          ((hllRun h (hllInitState p) items).registers.getD j 0) := by
  induction items with
  | nil =>
    intro A hA hlen j
    show A.registers.getD j 0 = max (A.registers.getD j 0) ((hllInitState p).registers.getD j 0)
    rw [hllInitState]
    simp only [getD_replicate_zero]
    omega
  | cons x xs ih =>
    intro A hA hlen j
    have hstep : hllRun h A (x :: xs) = hllRun h (hllAdd h A x) xs := rfl
    have hstep0 : hllRun h (hllInitState p) (x :: xs)
        = hllRun h (hllAdd h (hllInitState p) x) xs := rfl
    rw [hstep, hstep0]
    rw [ih (hllAdd h A x) ((hllAdd_precision h A x).trans hA)
      ((hllAdd_length h A x).trans hlen) j]
    rw [ih (hllAdd h (hllInitState p) x) rfl
      ((hllAdd_length h _ x).trans (hllInitState_length p)) j]
    rw [hllAdd_getD h A x (by omega) (by rw [hA]; exact hlen) j]
    rw [hllAdd_getD h (hllInitState p) x hp (hllInitState_length p) j]
    rw [hA, hllInitState_precision]
    simp only [hllInitState, getD_replicate_zero]
    by_cases hj : j = (h x % 2 ^ 64) >>> (64 - p)
    · rw [if_pos hj, if_pos hj]
      omega
    · rw [if_neg hj, if_neg hj]
      omega

theorem getD_zipWith_max (a b : List Nat) (j : Nat) (hja : j < a.length)
    (hjb : j < b.length) :
    (List.zipWith max a b).getD j 0 = max (a.getD j 0) (b.getD j 0) := by
  rw [List.getD_eq_getElem _ _ (by simp; omega)]
  rw [List.getElem_zipWith]
  rw [List.getD_eq_getElem a 0 hja, List.getD_eq_getElem b 0 hjb]

/-- Shape of a successful merge: fresh state of the common precision with the
filled register array. -/
theorem hllMerge_ok {s o : HyperLogLog} (hp : 4 ≤ s.precision ∧ s.precision ≤ 18)
    (heq : s.precision = o.precision) :
    hllMerge s o = .ok { precision := s.precision,
                         num_registers := 1 <<< s.precision,
                         registers := hllMergeFill s.registers o.registers
                           s.num_registers (List.replicate (1 <<< s.precision) 0) } := by
  rw [hllMerge, if_neg (not_not_intro heq), hllInit_ok hp]
  rfl

/-- C4: `merge` fails with the dimension-mismatch `ValueError` iff the
precisions differ; on matching precisions it succeeds, the result registers
are the element-wise max of the operands' registers, and they equal the
registers a single HyperLogLog holds after observing the concatenation of the
two input streams. -/
theorem hll_merge_lossless (h : String → Nat) (pa pb : Nat)
    (hpa : 4 ≤ pa ∧ pa ≤ 18) (hpb : 4 ≤ pb ∧ pb ≤ 18)
    (s1 s2 : List String) (A0 B0 : HyperLogLog)
    (hA0 : hllInit pa = .ok A0) (hB0 : hllInit pb = .ok B0) :
    (pa ≠ pb → hllMerge (hllRun h A0 s1) (hllRun h B0 s2)
        = .error (.valueError "HyperLogLogs must have the same precision")) ∧
    (pa = pb → (hllMerge (hllRun h A0 s1) (hllRun h B0 s2)).isOk = true) ∧
    (∀ Cm, hllMerge (hllRun h A0 s1) (hllRun h B0 s2) = .ok Cm →
      Cm.registers
          = List.zipWith max (hllRun h A0 s1).registers (hllRun h B0 s2).registers ∧
      Cm.registers = (hllRun h A0 (s1 ++ s2)).registers) := by
  have hA0' : A0 = hllInitState pa := by
    rw [hllInit_ok hpa] at hA0
    exact (Except.ok.inj hA0).symm
  have hB0' : B0 = hllInitState pb := by
    rw [hllInit_ok hpb] at hB0
    exact (Except.ok.inj hB0).symm
  subst hA0'
  subst hB0'
  have hpreA : (hllRun h (hllInitState pa) s1).precision = pa :=
    (hllRun_precision h s1 _).trans rfl
  have hpreB : (hllRun h (hllInitState pb) s2).precision = pb :=
    (hllRun_precision h s2 _).trans rfl
  have hlenA : (hllRun h (hllInitState pa) s1).registers.length = 2 ^ pa :=
    (hllRun_length h s1 _).trans (hllInitState_length pa)
  have hlenB : (hllRun h (hllInitState pb) s2).registers.length = 2 ^ pb :=
    (hllRun_length h s2 _).trans (hllInitState_length pb)
  have hpow : (1 <<< pa) = 2 ^ pa := by rw [Nat.shiftLeft_eq, one_mul]
  refine ⟨?_, ?_, ?_⟩
  · intro hne
    rw [hllMerge, if_pos (by rw [hpreA, hpreB]; exact hne)]
  · intro heq
    subst heq
    rw [hllMerge_ok (by rw [hpreA]; exact hpa) (by rw [hpreA, hpreB])]
    rfl
  · intro Cm hCm
    by_cases hne : pa = pb
    · subst hne
      rw [hllMerge_ok (by rw [hpreA]; exact hpa) (by rw [hpreA, hpreB])] at hCm
      have hC := Except.ok.inj hCm
      have hnum : (hllRun h (hllInitState pa) s1).num_registers = 1 <<< pa :=
        (hllRun_num_registers h s1 _).trans rfl
      have hzip : Cm.registers
          = List.zipWith max (hllRun h (hllInitState pa) s1).registers
              (hllRun h (hllInitState pa) s2).registers := by
        rw [← hC]
        show hllMergeFill _ _ _ _ = _
        rw [hpreA, hnum, hpow]
        exact hllMergeFill_eq_zipWith _ _ _ hlenA hlenB
      refine ⟨hzip, ?_⟩
      rw [hzip]
      have happ : hllRun h (hllInitState pa) (s1 ++ s2)
          = hllRun h (hllRun h (hllInitState pa) s1) s2 := List.foldl_append _ _ s1 s2
      rw [happ]
      apply natListExt
      · rw [hllRun_length]
        simp [hlenA, hlenB]
      · intro j hj
        simp only [List.length_zipWith, hlenA, hlenB, min_self] at hj
        rw [getD_zipWith_max _ _ j (by omega) (by omega)]
        rw [hllRun_getD_max h pa (by omega) s2 (hllRun h (hllInitState pa) s1)
          hpreA ((hllRun_length h s1 _).trans (hllInitState_length pa)) j]
    · exfalso
      rw [hllMerge, if_pos (by rw [hpreA, hpreB]; exact hne)] at hCm
      exact Except.noConfusion hCm

/-- Witness for C4 at a concrete digest, precision and streams. -/
theorem hll_merge_lossless_witness :
    (hllMerge (hllRun (fun s => s.length) (hllInitState 4) ["a"])
      (hllRun (fun s => s.length) (hllInitState 4) ["bb"])).isOk = true :=
  (hll_merge_lossless (fun s => s.length) 4 4 (by norm_num) (by norm_num)
    ["a"] ["bb"] (hllInitState 4) (hllInitState 4) rfl rfl).2.1 rfl

/-! ### C5: merge is exactly commutative and associative -/

/-- `merge(merge(a,b),c)`. -/
def cmsMergeLL (a b c : CountMinSketch) : Except PyErr CountMinSketch :=
  (cmsMerge a b).bind (fun ab => cmsMerge ab c)

/-- `merge(a, merge(b,c))`. -/
def cmsMergeLR (a b c : CountMinSketch) : Except PyErr CountMinSketch :=
  (cmsMerge b c).bind (fun bc => cmsMerge a bc)

/-- `merge(merge(a,b),c)`. -/
def hllMergeLL (a b c : HyperLogLog) : Except PyErr HyperLogLog :=
  (hllMerge a b).bind (fun ab => hllMerge ab c)

/-- `merge(a, merge(b,c))`. -/
def hllMergeLR (a b c : HyperLogLog) : Except PyErr HyperLogLog :=
  (hllMerge b c).bind (fun bc => hllMerge a bc)

theorem cmsInit_table (w d : Nat) :
    (cmsInit w d).table = List.replicate d (List.replicate w 0) := rfl

theorem getCell_mergedTable (ta tb : List (List Int)) (w d r c : Nat) :
    getCell (cmsMergeRows ta tb w d (cmsInit w d).table) r c
      = if r < d ∧ c < w then getCell ta r c + getCell tb r c else 0 := by
  rw [cmsInit_table]
  exact getCell_cmsMergeTable ta tb w d r c

theorem wf_mergedTable (ta tb : List (List Int)) (w d : Nat) :
    wfTable w d (cmsMergeRows ta tb w d (cmsInit w d).table) := by
  rw [cmsInit_table]
  exact cmsMergeRows_wf ta tb w d (wfTable_replicate w d)

theorem cmsMerge_merge_ok {X Y Z : CountMinSketch} (hwxy : X.width = Y.width)
    (hdxy : X.depth = Y.depth) (hwxz : X.width = Z.width) (hdxz : X.depth = Z.depth) :
    (cmsMerge X Y).bind (fun m => cmsMerge m Z)
      = .ok { width := X.width, depth := X.depth,
              table := cmsMergeRows
                (cmsMergeRows X.table Y.table X.width X.depth (cmsInit X.width X.depth).table)
                Z.table X.width X.depth (cmsInit X.width X.depth).table,
              total_count := X.total_count + Y.total_count + Z.total_count } := by
  rw [cmsMerge_ok hwxy hdxy]
  show cmsMerge _ Z = _
  exact cmsMerge_ok hwxz hdxz

theorem cmsMerge_merge_ok' {X Y Z : CountMinSketch} (hwyz : Y.width = Z.width)
    (hdyz : Y.depth = Z.depth) (hwxy : X.width = Y.width) (hdxy : X.depth = Y.depth) :
    (cmsMerge Y Z).bind (fun m => cmsMerge X m)
      = .ok { width := X.width, depth := X.depth,
              table := cmsMergeRows X.table
                (cmsMergeRows Y.table Z.table Y.width Y.depth (cmsInit Y.width Y.depth).table)
                X.width X.depth (cmsInit X.width X.depth).table,
              total_count := X.total_count + (Y.total_count + Z.total_count) } := by
  rw [cmsMerge_ok hwyz hdyz]
  show cmsMerge X _ = _
  exact cmsMerge_ok hwxy hdxy

theorem hllMerge_merge_ok {X Y Z : HyperLogLog}
    (hpX : 4 ≤ X.precision ∧ X.precision ≤ 18)
    (hxy : X.precision = Y.precision) (hxz : X.precision = Z.precision) :
    (hllMerge X Y).bind (fun m => hllMerge m Z)
      = .ok { precision := X.precision, num_registers := 1 <<< X.precision,
              registers := hllMergeFill
                (hllMergeFill X.registers Y.registers X.num_registers
                  (List.replicate (1 <<< X.precision) 0))
                Z.registers (1 <<< X.precision)
                (List.replicate (1 <<< X.precision) 0) } := by
  rw [hllMerge_ok hpX hxy]
  show hllMerge _ Z = _
  exact hllMerge_ok hpX hxz

theorem hllMerge_merge_ok' {X Y Z : HyperLogLog}
    (hpX : 4 ≤ X.precision ∧ X.precision ≤ 18)
    (hxy : X.precision = Y.precision) (hyz : Y.precision = Z.precision) :
    (hllMerge Y Z).bind (fun m => hllMerge X m)
      = .ok { precision := X.precision, num_registers := 1 <<< X.precision,
              registers := hllMergeFill X.registers
                (hllMergeFill Y.registers Z.registers Y.num_registers
                  (List.replicate (1 <<< Y.precision) 0))
                X.num_registers (List.replicate (1 <<< X.precision) 0) } := by
  rw [hllMerge_ok (by rw [← hxy]; exact hpX) hyz]
  show hllMerge X _ = _
  rw [hllMerge_ok hpX (by rw [hxy])]

/-- C5: merging is integer-exact commutative and associative: for Count-Min
sketches of equal dimensions the three association orders produce identical
table cells and `total_count`; for HyperLogLogs of equal (valid) precision
and register count they produce identical register arrays. -/
theorem merge_assoc_comm :
    (∀ A B C : CountMinSketch, A.width = B.width → B.width = C.width →
      A.depth = B.depth → B.depth = C.depth →
      cmsMergeLL A B C = cmsMergeLR A B C ∧ cmsMergeLL A B C = cmsMergeLL A C B) ∧
    (∀ p : Nat, 4 ≤ p → p ≤ 18 →
      ∀ A B C : HyperLogLog, A.precision = p → B.precision = p → C.precision = p →
      A.num_registers = 1 <<< p → B.num_registers = 1 <<< p →
      hllMergeLL A B C = hllMergeLR A B C ∧ hllMergeLL A B C = hllMergeLL A C B) := by
  constructor
  · intro A B C hw1 hw2 hd1 hd2
    have hLL : cmsMergeLL A B C = _ := cmsMerge_merge_ok hw1 hd1 (hw1.trans hw2) (hd1.trans hd2)
    have hLR : cmsMergeLR A B C = _ := cmsMerge_merge_ok' hw2 hd2 hw1 hd1
    have hLL2 : cmsMergeLL A C B = _ :=
      cmsMerge_merge_ok (hw1.trans hw2) (hd1.trans hd2) hw1 hd1
    constructor
    · rw [hLL, hLR]
      congr 1
      simp only [CountMinSketch.mk.injEq, true_and, and_true]
      refine ⟨?_, by ring⟩
      apply tableExt (wf_mergedTable _ _ _ _) (wf_mergedTable _ _ _ _)
      intro r hr c hc
      rw [getCell_mergedTable, getCell_mergedTable, if_pos ⟨hr, hc⟩, if_pos ⟨hr, hc⟩,
        getCell_mergedTable, getCell_mergedTable, if_pos ⟨hr, hc⟩]
      rw [← hw1, ← hd1, if_pos ⟨hr, hc⟩]
      ring
    · rw [hLL, hLL2]
      congr 1
      simp only [CountMinSketch.mk.injEq, true_and, and_true]
      refine ⟨?_, by ring⟩
      apply tableExt (wf_mergedTable _ _ _ _) (wf_mergedTable _ _ _ _)
      intro r hr c hc
      rw [getCell_mergedTable, getCell_mergedTable, if_pos ⟨hr, hc⟩, if_pos ⟨hr, hc⟩,
        getCell_mergedTable, getCell_mergedTable, if_pos ⟨hr, hc⟩, if_pos ⟨hr, hc⟩]
      ring
  · intro p hp4 hp18 A B C hA hB hC hnA hnB
    have hpA : 4 ≤ A.precision ∧ A.precision ≤ 18 := by omega
    have hLL : hllMergeLL A B C = _ :=
      hllMerge_merge_ok hpA (hA.trans hB.symm) (hA.trans hC.symm)
    have hLR : hllMergeLR A B C = _ :=
      hllMerge_merge_ok' hpA (hA.trans hB.symm) (hB.trans hC.symm)
    have hLL2 : hllMergeLL A C B = _ :=
      hllMerge_merge_ok hpA (hA.trans hC.symm) (hA.trans hB.symm)
    constructor
    · rw [hLL, hLR]
      congr 1
      simp only [HyperLogLog.mk.injEq, true_and, and_true]
      rw [hA, hB, hnA, hnB]
      apply natListExt
      · rw [hllMergeFill_length, hllMergeFill_length]
      · intro j hj
        rw [hllMergeFill_length, List.length_replicate] at hj
        rw [hllMergeFill_getD _ _ _ _ (by simp) j, if_pos hj,
          hllMergeFill_getD _ _ _ _ (by simp) j, if_pos hj,
          hllMergeFill_getD _ _ _ _ (by simp) j, if_pos hj,
          hllMergeFill_getD _ _ _ _ (by simp) j, if_pos hj]
        exact max_assoc _ _ _
    · rw [hLL, hLL2]
      congr 1
      simp only [HyperLogLog.mk.injEq, true_and, and_true]
      rw [hA, hnA]
      apply natListExt
      · rw [hllMergeFill_length, hllMergeFill_length]
      · intro j hj
        rw [hllMergeFill_length, List.length_replicate] at hj
        rw [hllMergeFill_getD _ _ _ _ (by simp) j, if_pos hj,
          hllMergeFill_getD _ _ _ _ (by simp) j, if_pos hj,
          hllMergeFill_getD _ _ _ _ (by simp) j, if_pos hj,
          hllMergeFill_getD _ _ _ _ (by simp) j, if_pos hj]
        rw [max_assoc, max_comm (B.registers.getD j 0), ← max_assoc]

/-- Witness for C5 at three concrete same-dimension structures. -/
theorem merge_assoc_comm_witness :
    (cmsMergeLL (cmsInit 1 1) (cmsInit 1 1) (cmsInit 1 1)
        = cmsMergeLR (cmsInit 1 1) (cmsInit 1 1) (cmsInit 1 1) ∧
      cmsMergeLL (cmsInit 1 1) (cmsInit 1 1) (cmsInit 1 1)
        = cmsMergeLL (cmsInit 1 1) (cmsInit 1 1) (cmsInit 1 1)) ∧
    (hllMergeLL (hllInitState 4) (hllInitState 4) (hllInitState 4)
        = hllMergeLR (hllInitState 4) (hllInitState 4) (hllInitState 4) ∧
      hllMergeLL (hllInitState 4) (hllInitState 4) (hllInitState 4)
        = hllMergeLL (hllInitState 4) (hllInitState 4) (hllInitState 4)) :=
  ⟨merge_assoc_comm.1 (cmsInit 1 1) (cmsInit 1 1) (cmsInit 1 1) rfl rfl rfl rfl,
   merge_assoc_comm.2 4 (by norm_num) (by norm_num)
     (hllInitState 4) (hllInitState 4) (hllInitState 4) rfl rfl rfl rfl rfl⟩

/-! ### C9: register range invariant -/

/-- The fill loop of `merge` keeps registers below any bound that dominates
both operands' registers and the base array. -/
theorem hllMergeFill_bound (ra rb : List Nat) (M : Nat)
    (hra : ∀ r ∈ ra, r ≤ M) (hrb : ∀ r ∈ rb, r ≤ M) :
    ∀ (n : Nat) (regs : List Nat), (∀ r ∈ regs, r ≤ M) →
    ∀ r ∈ hllMergeFill ra rb n regs, r ≤ M := by
  intro n
  induction n with
  | zero => intro regs hregs r hr; exact hregs r hr
  | succ i ih =>
    intro regs hregs r hr
    rw [hllMergeFill] at hr
    rcases List.mem_or_eq_of_mem_set hr with hm | rfl
    · exact ih regs hregs r hm
    · exact Nat.max_le.mpr ⟨getD_nat_le hra i, getD_nat_le hrb i⟩

/-- C9: every register stays in `[0, 64 − p + 1]`: construction zeroes them,
`add` writes `max(old, rho)` with `rho ≤ (64 − p) + 1`, and a successful
`merge` writes element-wise maxima of in-range values. -/
theorem hll_register_range (h : String → Nat) :
    (∀ p A, hllInit p = .ok A → ∀ r ∈ A.registers, r ≤ 64 - A.precision + 1) ∧
    (∀ A item, (∀ r ∈ A.registers, r ≤ 64 - A.precision + 1) →
      ∀ r ∈ (hllAdd h A item).registers, r ≤ 64 - (hllAdd h A item).precision + 1) ∧
    (∀ A B Cm, (∀ r ∈ A.registers, r ≤ 64 - A.precision + 1) →
      (∀ r ∈ B.registers, r ≤ 64 - B.precision + 1) →
      hllMerge A B = .ok Cm → ∀ r ∈ Cm.registers, r ≤ 64 - Cm.precision + 1) := by
  refine ⟨?_, ?_, ?_⟩
  · intro p A hinit r hr
    rw [hllInit] at hinit
    split at hinit
    · exact absurd hinit (by simp)
    · cases hinit
      rw [hllInitState] at hr
      simp only at hr
      rw [List.eq_of_mem_replicate hr]
      exact Nat.zero_le _
  · intro A item hA r hr
    rw [hllAdd_precision]
    simp only [hllAdd] at hr
    rcases List.mem_or_eq_of_mem_set hr with hm | rfl
    · exact hA r hm
    · exact Nat.max_le.mpr ⟨getD_nat_le hA _, countLeadingZeros_le _ _⟩
  · intro A B Cm hA hB hCm
    rw [hllMerge] at hCm
    split at hCm
    · exact absurd hCm (by simp)
    · rename_i hpeq
      rw [not_not] at hpeq
      rw [hllInit] at hCm
      split at hCm
      · exact absurd hCm (by simp [Except.map])
      · rename_i hvalid
        rw [not_not] at hvalid
        simp only [Except.map] at hCm
        cases hCm
        intro r hr
        simp only at hr ⊢
        refine hllMergeFill_bound A.registers B.registers (64 - A.precision + 1) hA
          (by rw [← hpeq] at hB; exact hB) A.num_registers _ ?_ r hr
        intro r' hr'
        rw [hllInitState] at hr'
        simp only at hr'
        rw [List.eq_of_mem_replicate hr']
        exact Nat.zero_le _

/-- Witness for C9: a single `add` on a fresh precision-4 HyperLogLog with an
all-zero digest writes the boundary rank `61 = 64 − 4 + 1`, still in range. -/
theorem hll_register_range_witness :
    (61 : Nat) ≤ 64 - (hllAdd (fun _ => 0) (hllInitState 4) "a").precision + 1 :=
  (hll_register_range (fun _ => 0)).2.1 (hllInitState 4) "a" (by decide) 61 (by decide)

/-! ### C10: merge is non-destructive -/

/-- Heap model of `merge` for Count-Min sketches: Python objects live in a
store addressed by index; `merged = CountMinSketch(...)` allocates a fresh
slot (appended at index `store.length`), every write of the method targets
only that slot, and the operands at `i` and `j` are only read. -/
def cmsMergeHeap (store : List CountMinSketch) (i j : Nat) :
    Except PyErr (List CountMinSketch × Nat) :=
  (cmsMerge (store.getD i (cmsInit 0 0)) (store.getD j (cmsInit 0 0))).map
    (fun m => (store ++ [m], store.length))

/-- Heap model of `merge` for HyperLogLogs (same conventions). -/
def hllMergeHeap (store : List HyperLogLog) (i j : Nat) :
    Except PyErr (List HyperLogLog × Nat) :=
  (hllMerge (store.getD i (hllInitState 4)) (store.getD j (hllInitState 4))).map
    (fun m => (store ++ [m], store.length))

/-- C10: both merges return a freshly allocated structure (the returned index
is new, the store grows by exactly one slot) and leave every pre-existing
slot — in particular both operands — unchanged. -/
theorem merge_nondestructive :
    (∀ (store : List CountMinSketch) (i j : Nat) (out : List CountMinSketch × Nat),
      cmsMergeHeap store i j = .ok out →
      out.2 = store.length ∧ out.1.length = store.length + 1 ∧
      ∀ l, l < store.length → out.1.getD l (cmsInit 0 0) = store.getD l (cmsInit 0 0)) ∧
    (∀ (store : List HyperLogLog) (i j : Nat) (out : List HyperLogLog × Nat),
      hllMergeHeap store i j = .ok out →
      out.2 = store.length ∧ out.1.length = store.length + 1 ∧
      ∀ l, l < store.length →
        out.1.getD l (hllInitState 4) = store.getD l (hllInitState 4)) := by
  constructor
  · intro store i j out hok
    rw [cmsMergeHeap] at hok
    cases hm : cmsMerge (store.getD i (cmsInit 0 0)) (store.getD j (cmsInit 0 0)) with
    | error e => rw [hm] at hok; exact absurd hok (by simp [Except.map])
    | ok m =>
      rw [hm] at hok
      simp only [Except.map] at hok
      cases hok
      refine ⟨rfl, by simp, ?_⟩
      intro l hl
      exact List.getD_append _ _ _ _ hl
  · intro store i j out hok
    rw [hllMergeHeap] at hok
    cases hm : hllMerge (store.getD i (hllInitState 4)) (store.getD j (hllInitState 4)) with
    | error e => rw [hm] at hok; exact absurd hok (by simp [Except.map])
    | ok m =>
      rw [hm] at hok
      simp only [Except.map] at hok
      cases hok
      refine ⟨rfl, by simp, ?_⟩
      intro l hl
      exact List.getD_append _ _ _ _ hl

/-- Witness for C10 on a concrete two-element store. -/
theorem merge_nondestructive_witness :
    (([cmsInit 1 1, cmsInit 1 1, cmsInit 1 1], 2) : List CountMinSketch × Nat).2
        = [cmsInit 1 1, cmsInit 1 1].length ∧
    (([cmsInit 1 1, cmsInit 1 1, cmsInit 1 1], 2) : List CountMinSketch × Nat).1.length
        = [cmsInit 1 1, cmsInit 1 1].length + 1 ∧
    (([cmsInit 1 1, cmsInit 1 1, cmsInit 1 1], 2) : List CountMinSketch × Nat).1.getD 0
        (cmsInit 0 0) = [cmsInit 1 1, cmsInit 1 1].getD 0 (cmsInit 0 0) := by
  have h := merge_nondestructive.1 [cmsInit 1 1, cmsInit 1 1] 0 1
    ([cmsInit 1 1, cmsInit 1 1, cmsInit 1 1], 2) (by rfl)
  exact ⟨h.1, h.2.1, h.2.2 0 (by norm_num)⟩

/-! ### C7: constructor validation -/

/-- Success form of the constructor whenever the derived byte count is
non-negative. -/
theorem bloomInit_ok (nb nh : Int) (h : -7 ≤ nb) :
    bloomInit nb nh
      = .ok { num_bits := nb, num_hashes := nh, num_items := 0,
              bits := List.replicate ((nb + 7).fdiv 8).toNat 0 } := by
  have hcond : ¬((nb + 7).fdiv 8 < 0) := by
    rw [Int.fdiv_eq_ediv _ (by norm_num)]
    omega
  rw [bloomInit, if_neg hcond]

/-- Counterexample to C7: `BloomFilter.__init__` performs no validation —
`BloomFilter(0, 0)` (so `num_bits ≤ 0` and `num_hashes < 1`) constructs
successfully instead of failing. -/
theorem bloom_init_validation_cex :
    bloomInit 0 0
      = .ok { num_bits := 0, num_hashes := 0, num_items := 0, bits := [] } := by
  rfl

/-- Amended C7: construction stores its arguments unvalidated.  It succeeds
for every `num_bits ≥ −7` (in particular for all `num_bits ≤ 0` down to −7
and every `num_hashes < 1`); the only construction-time failure is the
negative `bytearray` count for `num_bits ≤ −8`.  Invalid dimensions are
not detected at construction time. -/
theorem bloom_init_no_validation (nb nh : Int) :
    (-7 ≤ nb → bloomInit nb nh
      = .ok { num_bits := nb, num_hashes := nh, num_items := 0,
              bits := List.replicate ((nb + 7).fdiv 8).toNat 0 }) ∧
    (nb ≤ -8 → bloomInit nb nh = .error (.valueError "negative count")) := by
  constructor
  · exact bloomInit_ok nb nh
  · intro hnb
    have hcond : (nb + 7).fdiv 8 < 0 := by
      rw [Int.fdiv_eq_ediv _ (by norm_num)]
      omega
    rw [bloomInit, if_pos hcond]

/-- Witness for (amended) C7 at the concrete invalid dimensions `(0, 0)`. -/
theorem bloom_init_no_validation_witness :
    (-7 : Int) ≤ 0 ∧
    bloomInit 0 0
      = .ok { num_bits := 0, num_hashes := 0, num_items := 0,
              bits := List.replicate (((0 : Int) + 7).fdiv 8).toNat 0 } :=
  ⟨by norm_num, (bloom_init_no_validation 0 0).1 (by norm_num)⟩

/-! ### C6: `create_optimal` -/

/-- Python `int()` applied to a float: truncation toward zero. -/
noncomputable def pyTrunc (x : Real) : Int := if 0 ≤ x then ⌊x⌋ else ⌈x⌉

/-- `BloomFilter.create_optimal`, with `math.log` modelled as the exact real
logarithm: validation, `num_bits = int(-n * ln p / (ln 2)^2)`,
`num_hashes = max(1, int((num_bits / n) * ln 2))`, then
`cls(num_bits, num_hashes)`. -/
noncomputable def bloomCreateOptimal (expected_items : Int)
    (false_positive_rate : Real) : Except PyErr BloomFilter :=
  if expected_items ≤ 0 then
    .error (.valueError "Expected items must be positive")
  else if ¬(0 < false_positive_rate ∧ false_positive_rate < 1) then
    .error (.valueError "False positive rate must be between 0 and 1")
  else
    let num_bits := pyTrunc (-(expected_items : Real) * Real.log false_positive_rate
      / Real.log 2 ^ 2)
    let num_hashes := max 1 (pyTrunc (((num_bits : Real) / (expected_items : Real))
      * Real.log 2))
    bloomInit num_bits num_hashes

/-- The `num_bits` field of a construction result (−1 when construction
failed). -/
def exceptNumBits (e : Except PyErr BloomFilter) : Int :=
  match e with
  | .ok bf => bf.num_bits
  | .error _ => -1

/-- Success form of `create_optimal`: both `int()` conversions act on
non-negative reals, hence are floors, and the constructor call succeeds. -/
theorem bloomCreateOptimal_ok (n : Int) (p : Real) (hn : 0 < n) (hp0 : 0 < p)
    (hp1 : p < 1) :
    bloomCreateOptimal n p
      = .ok { num_bits := ⌊-(n : Real) * Real.log p / Real.log 2 ^ 2⌋,
              num_hashes := max 1 ⌊((⌊-(n : Real) * Real.log p / Real.log 2 ^ 2⌋ : Real)
                / (n : Real)) * Real.log 2⌋,
              num_items := 0,
              bits := List.replicate
                ((⌊-(n : Real) * Real.log p / Real.log 2 ^ 2⌋ + 7).fdiv 8).toNat 0 } := by
  have hl2 : 0 < Real.log 2 := lt_trans (by norm_num) Real.log_two_gt_d9
  have hlogp : Real.log p < 0 := Real.log_neg hp0 hp1
  have hnr : (0 : Real) < (n : Real) := by exact_mod_cast hn
  have hvpos : 0 < -(n : Real) * Real.log p / Real.log 2 ^ 2 :=
    div_pos (mul_pos_of_neg_of_neg (neg_lt_zero.mpr hnr) hlogp) (pow_pos hl2 2)
  have htr1 : pyTrunc (-(n : Real) * Real.log p / Real.log 2 ^ 2)
      = ⌊-(n : Real) * Real.log p / Real.log 2 ^ 2⌋ := by
    rw [pyTrunc, if_pos (le_of_lt hvpos)]
  have hnb0 : 0 ≤ ⌊-(n : Real) * Real.log p / Real.log 2 ^ 2⌋ :=
    Int.floor_nonneg.mpr (le_of_lt hvpos)
  have harg2 : 0 ≤ ((⌊-(n : Real) * Real.log p / Real.log 2 ^ 2⌋ : Real)
      / (n : Real)) * Real.log 2 :=
    mul_nonneg (div_nonneg (by exact_mod_cast hnb0) (le_of_lt hnr)) (le_of_lt hl2)
  have htr2 : pyTrunc (((⌊-(n : Real) * Real.log p / Real.log 2 ^ 2⌋ : Real)
      / (n : Real)) * Real.log 2)
      = ⌊((⌊-(n : Real) * Real.log p / Real.log 2 ^ 2⌋ : Real)
        / (n : Real)) * Real.log 2⌋ := by
    rw [pyTrunc, if_pos harg2]
  rw [bloomCreateOptimal, if_neg (not_le.mpr hn), if_neg (not_not_intro ⟨hp0, hp1⟩)]
  show bloomInit (pyTrunc (-(n : Real) * Real.log p / Real.log 2 ^ 2))
    (max 1 (pyTrunc (((pyTrunc (-(n : Real) * Real.log p / Real.log 2 ^ 2) : Real)
      / (n : Real)) * Real.log 2))) = _
  rw [htr1, htr2]
  exact bloomInit_ok _ _ (by omega)

/-- Counterexample to C6: at `n = 1`, `p = 1/2` the formula value is
`1/ln 2 ≈ 1.44`; the code truncates (`int()`) and builds a filter with
`num_bits = 1`, while the claimed ceiling is `2`. -/
theorem bloom_create_optimal_cex :
    exceptNumBits (bloomCreateOptimal 1 (1 / 2)) = 1 ∧
    (⌈-((1 : Int) : Real) * Real.log (1 / 2) / Real.log 2 ^ 2⌉ : Int) = 2 := by
  have hl2 : 0 < Real.log 2 := lt_trans (by norm_num) Real.log_two_gt_d9
  have hl2lt : Real.log 2 < 1 := lt_trans Real.log_two_lt_d9 (by norm_num)
  have hl2gt : (1 : Real) / 2 < Real.log 2 := lt_trans (by norm_num) Real.log_two_gt_d9
  have hv : -((1 : Int) : Real) * Real.log (1 / 2) / Real.log 2 ^ 2
      = (Real.log 2)⁻¹ := by
    rw [one_div, Real.log_inv, pow_two]
    push_cast
    field_simp
  have hinv1 : Real.log 2 * (Real.log 2)⁻¹ = 1 := mul_inv_cancel₀ (ne_of_gt hl2)
  have hipos : 0 < (Real.log 2)⁻¹ := inv_pos.mpr hl2
  have hlb : 1 < (Real.log 2)⁻¹ := by nlinarith
  have hub : (Real.log 2)⁻¹ < 2 := by nlinarith
  constructor
  · rw [show ((1 : Real) / 2) = ((1 / 2 : Real)) from rfl]
    rw [bloomCreateOptimal_ok 1 (1 / 2) (by norm_num) (by norm_num) (by norm_num)]
    rw [exceptNumBits]
    show ⌊-((1 : Int) : Real) * Real.log (1 / 2) / Real.log 2 ^ 2⌋ = 1
    rw [hv, Int.floor_eq_iff]
    push_cast
    exact ⟨le_of_lt hlb, by linarith⟩
  · rw [hv, Int.ceil_eq_iff]
    push_cast
    exact ⟨by linarith, le_of_lt hub⟩

/-- Amended C6: `create_optimal` validates exactly as claimed, but computes
`num_bits = ⌊−n·ln(p)/(ln 2)²⌋` (truncation, not ceiling) and
`num_hashes = max(1, ⌊(num_bits/n)·ln 2⌋)` (truncation, not rounding), and
always constructs successfully for valid inputs. -/
theorem bloom_create_optimal_formula (n : Int) (p : Real) :
    (n ≤ 0 → bloomCreateOptimal n p
        = .error (.valueError "Expected items must be positive")) ∧
    (0 < n → ¬(0 < p ∧ p < 1) → bloomCreateOptimal n p
        = .error (.valueError "False positive rate must be between 0 and 1")) ∧
    (0 < n → 0 < p → p < 1 → (bloomCreateOptimal n p).isOk = true) ∧
    (0 < n → 0 < p → p < 1 →
      ∀ bf, bloomCreateOptimal n p = .ok bf →
        bf.num_bits = ⌊-(n : Real) * Real.log p / Real.log 2 ^ 2⌋ ∧
        bf.num_hashes = max 1 ⌊((⌊-(n : Real) * Real.log p / Real.log 2 ^ 2⌋ : Real)
          / (n : Real)) * Real.log 2⌋) := by
  refine ⟨?_, ?_, ?_, ?_⟩
  · intro hn
    rw [bloomCreateOptimal, if_pos hn]
  · intro hn hp
    rw [bloomCreateOptimal, if_neg (not_le.mpr hn), if_pos hp]
  · intro hn hp0 hp1
    rw [bloomCreateOptimal_ok n p hn hp0 hp1]
    rfl
  · intro hn hp0 hp1 bf hbf
    rw [bloomCreateOptimal_ok n p hn hp0 hp1] at hbf
    have h := Except.ok.inj hbf
    rw [← h]
    exact ⟨rfl, rfl⟩

/-- Witness for (amended) C6 at `n = 1`, `p = 1/2`. -/
theorem bloom_create_optimal_formula_witness :
    0 < (1 : Int) ∧ 0 < (1 / 2 : Real) ∧ (1 / 2 : Real) < 1 ∧
    (bloomCreateOptimal 1 (1 / 2)).isOk = true :=
  ⟨by norm_num, by norm_num, by norm_num,
   (bloom_create_optimal_formula 1 (1 / 2)).2.2.1 (by norm_num) (by norm_num) (by norm_num)⟩
